import Mathlib

/-!
Verification model of the kassandra in-memory Cassandra test double.

The definitions in this file are shallow embeddings of the Rust source:
  * `CqlValue`, `ClusteringKeyValue`, `PartitionKeyValue`, the range types and
    their derived `Ord` semantics  — src/kassandra/src/cql/types/value.rs
  * the storage engine                — src/kassandra/src/storage/memory.rs
  * the clustering-range planner      — src/kassandra/src/cql/plan/data_reader.rs
  * the select executor               — src/kassandra/src/cql/execution/select.rs
  * the paging-state codec            — src/kassandra/src/frame/value.rs and
                                        src/kassandra/src/frame/request/query_params.rs
  * the schema catalog                — src/kassandra/src/cql/schema/mod.rs, persisted.rs
  * the session dispatcher            — src/kassandra/src/session.rs
  * the JSON aggregation node         — src/kassandra/src/cql/execution/json.rs

Rust `BTreeMap`s are modelled as sorted association lists, `HashMap`s as
association lists with first-match lookup, machine integers as `Int`/`Nat`
(floating point fields hold the raw bit pattern, exactly as the source does).
-/

namespace Kassandra

/-- `if a < b then lt else if a = b then eq else gt`: the comparison scheme of
Rust's derived `Ord` on primitive fields. -/
def cmpo {α : Type} [LinearOrder α] (a b : α) : Ordering :=
  if a < b then .lt else if a = b then .eq else .gt

/-- Chaining of comparisons, as in Rust's derived lexicographic `Ord`. -/
def ordThen (a b : Ordering) : Ordering :=
  match a with
  | .eq => b
  | x => x

/-- Lexicographic comparison of lists of linearly ordered elements
(Rust `Vec<T>` derived `Ord`: elementwise, ties broken by length). -/
def lexCmp {α : Type} [LinearOrder α] : List α → List α → Ordering
  | [], [] => .eq
  | [], _ :: _ => .lt
  | _ :: _, [] => .gt
  | a :: as_, b :: bs => ordThen (cmpo a b) (lexCmp as_ bs)

/-- String comparison, code point by code point (Rust's `String` order is
byte-lexicographic on UTF-8, which coincides with code-point order). -/
def strCmp (a b : String) : Ordering := lexCmp a.data b.data

/-- Model of `std::net::IpAddr` with its derived order: any `V4` address is
below any `V6` address, and addresses of equal family compare numerically
(big-endian octets = numeric value for fixed width). -/
inductive IpAddrM where
  | V4 (a : Nat)
  | V6 (a : Nat)
deriving DecidableEq

/-- Derived `Ord` of `IpAddr`. -/
def ipCmp : IpAddrM → IpAddrM → Ordering
  | .V4 a, .V4 b => cmpo a b
  | .V4 _, .V6 _ => .lt
  | .V6 _, .V4 _ => .gt
  | .V6 a, .V6 b => cmpo a b

/-- `CqlDuration` from value.rs: three fields, derived `Ord` is lexicographic
in declaration order. -/
structure CqlDuration where
  months : Int
  days : Int
  nanoseconds : Int
deriving DecidableEq

/-- Derived `Ord` of `CqlDuration`. -/
def durCmp (a b : CqlDuration) : Ordering :=
  ordThen (cmpo a.months b.months)
    (ordThen (cmpo a.days b.days) (cmpo a.nanoseconds b.nanoseconds))

/-- `CqlValue` from src/kassandra/src/cql/types/value.rs, with the variants in
their Rust declaration order (this order is what the derived `Ord` compares
first; note that `Empty` is declared last).  Payload types: strings stay
strings (Rust's byte-lexicographic order on UTF-8 coincides with Lean's
code-point order), `Blob` is its byte list, fixed-width integers are `Int`,
bit-pattern fields (`Date`, `Double`, `Float`) and 128-bit ids are `Nat`,
`Decimal` is its numeric value. -/
inductive CqlValue where
  | Tuple (v : List CqlValue)
  | Ascii (v : String)
  | Boolean (v : Bool)
  | Blob (v : List Nat)
  | Counter (v : Int)
  | Decimal (v : Rat)
  | Date (v : Nat)
  | Double (v : Nat)
  | Duration (v : CqlDuration)
  | Float (v : Nat)
  | Int (v : Int)
  | BigInt (v : Int)
  | Text (v : String)
  | Timestamp (v : Int)
  | Inet (v : IpAddrM)
  | List (v : List CqlValue)
  | Map (v : List (CqlValue × CqlValue))
  | Set (v : List CqlValue)
  | UserDefinedType (keyspace : String) (type_name : String)
      (fields : List (String × Option CqlValue))
  | SmallInt (v : Int)
  | TinyInt (v : Int)
  | Time (v : Int)
  | Timeuuid (v : Nat)
  | Uuid (v : Nat)
  | Varint (v : Int)
  | Empty

/-- Discriminant of a `CqlValue`, i.e. the Rust variant index in declaration
order; the derived `Ord` compares discriminants before any payload. -/
def ctorIdx : CqlValue → Nat
  | .Tuple _ => 0
  | .Ascii _ => 1
  | .Boolean _ => 2
  | .Blob _ => 3
  | .Counter _ => 4
  | .Decimal _ => 5
  | .Date _ => 6
  | .Double _ => 7
  | .Duration _ => 8
  | .Float _ => 9
  | .Int _ => 10
  | .BigInt _ => 11
  | .Text _ => 12
  | .Timestamp _ => 13
  | .Inet _ => 14
  | .List _ => 15
  | .Map _ => 16
  | .Set _ => 17
  | .UserDefinedType _ _ _ => 18
  | .SmallInt _ => 19
  | .TinyInt _ => 20
  | .Time _ => 21
  | .Timeuuid _ => 22
  | .Uuid _ => 23
  | .Varint _ => 24
  | .Empty => 25

mutual

/-- Payload comparison of two `CqlValue`s — the "field" part of the derived
`Ord` of value.rs.  Variants that differ are fully decided by the
discriminant comparison in `cqlCmp`, so the payload comparison of a
mismatched pair is irrelevant and fixed to `eq` here. -/
def payCmp : CqlValue → CqlValue → Ordering
  | .Tuple x, b => match b with | .Tuple y => cqlCmpList x y | _ => .eq
  | .Ascii x, b => match b with | .Ascii y => strCmp x y | _ => .eq
  | .Boolean x, b => match b with | .Boolean y => cmpo x y | _ => .eq
  | .Blob x, b => match b with | .Blob y => lexCmp x y | _ => .eq
  | .Counter x, b => match b with | .Counter y => cmpo x y | _ => .eq
  | .Decimal x, b => match b with | .Decimal y => cmpo x y | _ => .eq
  | .Date x, b => match b with | .Date y => cmpo x y | _ => .eq
  | .Double x, b => match b with | .Double y => cmpo x y | _ => .eq
  | .Duration x, b => match b with | .Duration y => durCmp x y | _ => .eq
  | .Float x, b => match b with | .Float y => cmpo x y | _ => .eq
  | .Int x, b => match b with | .Int y => cmpo x y | _ => .eq
  | .BigInt x, b => match b with | .BigInt y => cmpo x y | _ => .eq
  | .Text x, b => match b with | .Text y => strCmp x y | _ => .eq
  | .Timestamp x, b => match b with | .Timestamp y => cmpo x y | _ => .eq
  | .Inet x, b => match b with | .Inet y => ipCmp x y | _ => .eq
  | .List x, b => match b with | .List y => cqlCmpList x y | _ => .eq
  | .Map x, b => match b with | .Map y => cqlCmpPairs x y | _ => .eq
  | .Set x, b => match b with | .Set y => cqlCmpList x y | _ => .eq
  | .UserDefinedType k t f, b =>
      match b with
      | .UserDefinedType k2 t2 f2 =>
          ordThen (strCmp k k2) (ordThen (strCmp t t2) (cqlCmpFields f f2))
      | _ => .eq
  | .SmallInt x, b => match b with | .SmallInt y => cmpo x y | _ => .eq
  | .TinyInt x, b => match b with | .TinyInt y => cmpo x y | _ => .eq
  | .Time x, b => match b with | .Time y => cmpo x y | _ => .eq
  | .Timeuuid x, b => match b with | .Timeuuid y => cmpo x y | _ => .eq
  | .Uuid x, b => match b with | .Uuid y => cmpo x y | _ => .eq
  | .Varint x, b => match b with | .Varint y => cmpo x y | _ => .eq
  | .Empty, _ => .eq
termination_by structural a => a

/-- Lexicographic comparison of `Vec<CqlValue>` (element comparison is the
full derived order: discriminant, then payload). -/
def cqlCmpList : List CqlValue → List CqlValue → Ordering
  | [], [] => .eq
  | [], _ :: _ => .lt
  | _ :: _, [] => .gt
  | a :: as_, b :: bs =>
      ordThen (ordThen (cmpo (ctorIdx a) (ctorIdx b)) (payCmp a b)) (cqlCmpList as_ bs)
termination_by structural l => l

/-- Lexicographic comparison of `Vec<(CqlValue, CqlValue)>`. -/
def cqlCmpPairs : List (CqlValue × CqlValue) → List (CqlValue × CqlValue) → Ordering
  | [], [] => .eq
  | [], _ :: _ => .lt
  | _ :: _, [] => .gt
  | (a, x) :: r, (b, y) :: s =>
      ordThen (ordThen (cmpo (ctorIdx a) (ctorIdx b)) (payCmp a b))
        (ordThen (ordThen (cmpo (ctorIdx x) (ctorIdx y)) (payCmp x y)) (cqlCmpPairs r s))
termination_by structural l => l

/-- Derived comparison of `Option<CqlValue>`: `None` is below any `Some`. -/
def cqlCmpOpt : Option CqlValue → Option CqlValue → Ordering
  | none, none => .eq
  | none, some _ => .lt
  | some _, none => .gt
  | some a, some b => ordThen (cmpo (ctorIdx a) (ctorIdx b)) (payCmp a b)
termination_by structural o => o

/-- Lexicographic comparison of `Vec<(String, Option<CqlValue>)>`. -/
def cqlCmpFields : List (String × Option CqlValue) → List (String × Option CqlValue) → Ordering
  | [], [] => .eq
  | [], _ :: _ => .lt
  | _ :: _, [] => .gt
  | (a, x) :: r, (b, y) :: s =>
      ordThen (strCmp a b) (ordThen (cqlCmpOpt x y) (cqlCmpFields r s))
termination_by structural l => l

end

/-- The derived total order of `CqlValue` (`#[derive(PartialOrd, Ord)]` in
value.rs): the variant index in declaration order decides first, and equal
variants are compared by payload. -/
def cqlCmp (a b : CqlValue) : Ordering :=
  ordThen (cmpo (ctorIdx a) (ctorIdx b)) (payCmp a b)

/-- `cqlCmpList` compares element by element with the full `cqlCmp`. -/
def cqlCmpList_cons (a b : CqlValue) (as_ bs : List CqlValue) :
    cqlCmpList (a :: as_) (b :: bs) = ordThen (cqlCmp a b) (cqlCmpList as_ bs) := by
  simp only [cqlCmpList, cqlCmp]

/-- `cqlCmpOpt` on two present values is the full `cqlCmp`. -/
def cqlCmpOpt_some (a b : CqlValue) : cqlCmpOpt (some a) (some b) = cqlCmp a b := by
  simp only [cqlCmpOpt, cqlCmp]

/-- `cqlCmpPairs` compares pairs componentwise with the full `cqlCmp`. -/
def cqlCmpPairs_cons (a1 a2 b1 b2 : CqlValue) (r s : List (CqlValue × CqlValue)) :
    cqlCmpPairs ((a1, a2) :: r) ((b1, b2) :: s) =
      ordThen (cqlCmp a1 b1) (ordThen (cqlCmp a2 b2) (cqlCmpPairs r s)) := by
  simp only [cqlCmpPairs, cqlCmp]
/-- `cmpo` is reflexive. -/
def cmpo_refl {α : Type} [LinearOrder α] (a : α) : cmpo a a = .eq := by
  simp [cmpo]

/-- `cmpo` answers `eq` only on equal arguments. -/
def cmpo_eq {α : Type} [LinearOrder α] {a b : α} (h : cmpo a b = .eq) : a = b := by
  by_cases h1 : a < b
  · simp [cmpo, h1] at h
  · by_cases h2 : a = b
    · exact h2
    · simp [cmpo, h1, h2] at h

/-- Swapping the arguments of `cmpo` flips the result. -/
def cmpo_swap {α : Type} [LinearOrder α] (a b : α) : (cmpo a b).swap = cmpo b a := by
  rcases lt_trichotomy a b with h | h | h
  · simp [cmpo, h, asymm h, (ne_of_lt h).symm, Ordering.swap]
  · simp [cmpo, h, Ordering.swap]
  · simp [cmpo, h, asymm h, ne_of_gt h, (ne_of_lt h).symm, not_lt_of_gt h, Ordering.swap]

/-- `cmpo` answers `lt` exactly on increasing arguments. -/
def cmpo_lt_iff {α : Type} [LinearOrder α] {a b : α} : cmpo a b = .lt ↔ a < b := by
  rcases lt_trichotomy a b with h | h | h
  · simp [cmpo, h]
  · subst h; simp [cmpo, lt_irrefl]
  · have h1 : ¬a < b := asymm h
    have h2 : a ≠ b := ne_of_gt h
    simp [cmpo, h1, h2]

/-- `cmpo` answers `gt` exactly on decreasing arguments. -/
def cmpo_gt_iff {α : Type} [LinearOrder α] {a b : α} : cmpo a b = .gt ↔ b < a := by
  rcases lt_trichotomy a b with h | h | h
  · simp [cmpo, h, asymm h]
  · subst h; simp [cmpo, lt_irrefl]
  · have h1 : ¬a < b := asymm h
    have h2 : a ≠ b := ne_of_gt h
    simp [cmpo, h1, h2, h]

/-- `cmpo` answers `eq` exactly on equal arguments. -/
def cmpo_eq_iff {α : Type} [LinearOrder α] {a b : α} : cmpo a b = .eq ↔ a = b :=
  ⟨cmpo_eq, fun h => h ▸ cmpo_refl a⟩

/-- `ordThen` yields `eq` exactly when both comparisons do. -/
def ordThen_eq {a b : Ordering} : ordThen a b = .eq ↔ a = .eq ∧ b = .eq := by
  cases a <;> simp [ordThen]

/-- `Ordering.swap` distributes over `ordThen`. -/
def ordThen_swap (a b : Ordering) : (ordThen a b).swap = ordThen a.swap b.swap := by
  cases a <;> simp [ordThen, Ordering.swap]

/-- `lexCmp` is reflexive. -/
def lexCmp_refl {α : Type} [LinearOrder α] : (l : List α) → lexCmp l l = .eq
  | [] => rfl
  | a :: as_ => by simp [lexCmp, cmpo_refl a, ordThen, lexCmp_refl as_]

/-- `lexCmp` answers `eq` only on equal lists. -/
def lexCmp_eq {α : Type} [LinearOrder α] : {l m : List α} → lexCmp l m = .eq → l = m
  | [], [], _ => rfl
  | [], _ :: _, h => by simp [lexCmp] at h
  | _ :: _, [], h => by simp [lexCmp] at h
  | a :: as_, b :: bs, h => by
      simp only [lexCmp, ordThen_eq] at h
      rw [cmpo_eq h.1, lexCmp_eq h.2]

/-- Swapping the arguments of `lexCmp` flips the result. -/
def lexCmp_swap {α : Type} [LinearOrder α] : (l m : List α) → (lexCmp l m).swap = lexCmp m l
  | [], [] => rfl
  | [], _ :: _ => rfl
  | _ :: _, [] => rfl
  | a :: as_, b :: bs => by
      simp only [lexCmp, ordThen_swap, cmpo_swap, lexCmp_swap as_ bs]

/-- `lexCmp` answers `lt` exactly on lexicographically smaller lists
(a strict prefix is smaller). -/
def lexCmp_lt_iff {α : Type} [LinearOrder α] :
    {l m : List α} → (lexCmp l m = .lt ↔ List.Lex (· < ·) l m)
  | [], [] => by
      constructor
      · intro h; simp [lexCmp] at h
      · intro h; cases h
  | [], _ :: _ => ⟨fun _ => List.Lex.nil, fun _ => rfl⟩
  | _ :: _, [] => by
      constructor
      · intro h; simp [lexCmp] at h
      · intro h; cases h
  | a :: as_, b :: bs => by
      constructor
      · intro h
        rcases ho : cmpo a b with _ | _ | _
        · exact List.Lex.rel (cmpo_lt_iff.mp ho)
        · rw [cmpo_eq ho]
          exact List.Lex.cons (lexCmp_lt_iff.mp (by simpa [lexCmp, ho, ordThen] using h))
        · simp [lexCmp, ho, ordThen] at h
      · intro h
        cases h with
        | rel h1 => simp [lexCmp, cmpo_lt_iff.mpr h1, ordThen]
        | cons h1 => simp [lexCmp, cmpo_refl, ordThen, lexCmp_lt_iff.mpr h1]

/-- `strCmp` is reflexive. -/
def strCmp_refl (a : String) : strCmp a a = .eq := lexCmp_refl a.data

/-- `strCmp` answers `eq` only on equal strings. -/
def strCmp_eq {a b : String} (h : strCmp a b = .eq) : a = b := by
  cases a; cases b; exact congrArg String.mk (lexCmp_eq h)

/-- Swapping the arguments of `strCmp` flips the result. -/
def strCmp_swap (a b : String) : (strCmp a b).swap = strCmp b a := lexCmp_swap a.data b.data

/-- `durCmp` is reflexive. -/
def durCmp_refl (a : CqlDuration) : durCmp a a = .eq := by
  simp [durCmp, cmpo_refl, ordThen]

/-- `durCmp` answers `eq` only on equal durations. -/
def durCmp_eq {a b : CqlDuration} (h : durCmp a b = .eq) : a = b := by
  simp only [durCmp, ordThen_eq] at h
  obtain ⟨h1, h2, h3⟩ := h
  cases a; cases b
  simp only [CqlDuration.mk.injEq]
  exact ⟨cmpo_eq h1, cmpo_eq h2, cmpo_eq h3⟩

/-- Swapping the arguments of `durCmp` flips the result. -/
def durCmp_swap (a b : CqlDuration) : (durCmp a b).swap = durCmp b a := by
  simp [durCmp, ordThen_swap, cmpo_swap]

/-- `ipCmp` is reflexive. -/
def ipCmp_refl (a : IpAddrM) : ipCmp a a = .eq := by
  cases a <;> simp [ipCmp, cmpo_refl]

/-- `ipCmp` answers `eq` only on equal addresses. -/
def ipCmp_eq {a b : IpAddrM} (h : ipCmp a b = .eq) : a = b := by
  cases a <;> cases b <;> simp [ipCmp] at h ⊢ <;> exact cmpo_eq h

/-- Swapping the arguments of `ipCmp` flips the result. -/
def ipCmp_swap (a b : IpAddrM) : (ipCmp a b).swap = ipCmp b a := by
  cases a <;> cases b <;> first | rfl | exact cmpo_swap _ _
mutual

/-- `payCmp` is reflexive. -/
def payCmp_refl : (a : CqlValue) → payCmp a a = .eq
  | .Tuple x => by simp only [payCmp]; exact cqlCmpList_refl x
  | .Ascii x => by simp only [payCmp]; exact strCmp_refl x
  | .Boolean x => by simp only [payCmp]; exact cmpo_refl x
  | .Blob x => by simp only [payCmp]; exact lexCmp_refl x
  | .Counter x => by simp only [payCmp]; exact cmpo_refl x
  | .Decimal x => by simp only [payCmp]; exact cmpo_refl x
  | .Date x => by simp only [payCmp]; exact cmpo_refl x
  | .Double x => by simp only [payCmp]; exact cmpo_refl x
  | .Duration x => by simp only [payCmp]; exact durCmp_refl x
  | .Float x => by simp only [payCmp]; exact cmpo_refl x
  | .Int x => by simp only [payCmp]; exact cmpo_refl x
  | .BigInt x => by simp only [payCmp]; exact cmpo_refl x
  | .Text x => by simp only [payCmp]; exact strCmp_refl x
  | .Timestamp x => by simp only [payCmp]; exact cmpo_refl x
  | .Inet x => by simp only [payCmp]; exact ipCmp_refl x
  | .List x => by simp only [payCmp]; exact cqlCmpList_refl x
  | .Map x => by simp only [payCmp]; exact cqlCmpPairs_refl x
  | .Set x => by simp only [payCmp]; exact cqlCmpList_refl x
  | .UserDefinedType k t f => by
      simp only [payCmp]
      rw [strCmp_refl, strCmp_refl, cqlCmpFields_refl f]
      rfl
  | .SmallInt x => by simp only [payCmp]; exact cmpo_refl x
  | .TinyInt x => by simp only [payCmp]; exact cmpo_refl x
  | .Time x => by simp only [payCmp]; exact cmpo_refl x
  | .Timeuuid x => by simp only [payCmp]; exact cmpo_refl x
  | .Uuid x => by simp only [payCmp]; exact cmpo_refl x
  | .Varint x => by simp only [payCmp]; exact cmpo_refl x
  | .Empty => by simp only [payCmp]

/-- `cqlCmpList` is reflexive. -/
def cqlCmpList_refl : (l : List CqlValue) → cqlCmpList l l = .eq
  | [] => rfl
  | a :: as_ => by
      simp only [cqlCmpList]
      rw [cmpo_refl, payCmp_refl a, cqlCmpList_refl as_]
      rfl

/-- `cqlCmpPairs` is reflexive. -/
def cqlCmpPairs_refl : (l : List (CqlValue × CqlValue)) → cqlCmpPairs l l = .eq
  | [] => rfl
  | (a, x) :: r => by
      simp only [cqlCmpPairs]
      rw [cmpo_refl, cmpo_refl, payCmp_refl a, payCmp_refl x, cqlCmpPairs_refl r]
      rfl

/-- `cqlCmpOpt` is reflexive. -/
def cqlCmpOpt_refl : (o : Option CqlValue) → cqlCmpOpt o o = .eq
  | none => rfl
  | some a => by
      simp only [cqlCmpOpt]
      rw [cmpo_refl, payCmp_refl a]
      rfl

/-- `cqlCmpFields` is reflexive. -/
def cqlCmpFields_refl : (l : List (String × Option CqlValue)) → cqlCmpFields l l = .eq
  | [] => rfl
  | (a, x) :: r => by
      simp only [cqlCmpFields]
      rw [strCmp_refl, cqlCmpOpt_refl x, cqlCmpFields_refl r]
      rfl

end

/-- The derived `CqlValue` order is reflexive. -/
def cqlCmp_refl (a : CqlValue) : cqlCmp a a = .eq := by
  show ordThen (cmpo (ctorIdx a) (ctorIdx a)) (payCmp a a) = .eq
  rw [cmpo_refl, payCmp_refl a]
  rfl
mutual

/-- The derived `CqlValue` order answers `eq` only on equal values. -/
def cqlCmp_eqv (a b : CqlValue) (h : cqlCmp a b = .eq) : a = b := by
  rw [show cqlCmp a b = ordThen (cmpo (ctorIdx a) (ctorIdx b)) (payCmp a b) from rfl,
    ordThen_eq] at h
  obtain ⟨h1, h2⟩ := h
  cases a <;> cases b <;>
    first
      | rfl
      | exact absurd h1 Ordering.noConfusion
      | (simp only [payCmp] at h2; exact congrArg _ (cmpo_eq h2))
      | (simp only [payCmp] at h2; exact congrArg _ (strCmp_eq h2))
      | (simp only [payCmp] at h2; exact congrArg _ (lexCmp_eq h2))
      | (simp only [payCmp] at h2; exact congrArg _ (durCmp_eq h2))
      | (simp only [payCmp] at h2; exact congrArg _ (ipCmp_eq h2))
      | (simp only [payCmp] at h2; exact congrArg _ (cqlCmpList_eqv _ _ h2))
      | (simp only [payCmp] at h2; exact congrArg _ (cqlCmpPairs_eqv _ _ h2))
      | (simp only [payCmp] at h2
         rw [ordThen_eq, ordThen_eq] at h2
         obtain ⟨e1, e2, e3⟩ := h2
         rw [strCmp_eq e1, strCmp_eq e2, cqlCmpFields_eqv _ _ e3])
termination_by sizeOf a

/-- `cqlCmpList` answers `eq` only on equal lists. -/
def cqlCmpList_eqv : (l m : List CqlValue) → cqlCmpList l m = .eq → l = m
  | [], [], _ => rfl
  | [], _ :: _, h => by simp [cqlCmpList] at h
  | _ :: _, [], h => by simp [cqlCmpList] at h
  | a :: r, b :: s, h => by
      simp only [cqlCmpList, ordThen_eq] at h
      obtain ⟨⟨h1, h2⟩, h3⟩ := h
      rw [cqlCmp_eqv a b (ordThen_eq.mpr ⟨h1, h2⟩), cqlCmpList_eqv r s h3]
termination_by l => sizeOf l

/-- `cqlCmpPairs` answers `eq` only on equal lists. -/
def cqlCmpPairs_eqv : (l m : List (CqlValue × CqlValue)) → cqlCmpPairs l m = .eq → l = m
  | [], [], _ => rfl
  | [], _ :: _, h => by simp [cqlCmpPairs] at h
  | _ :: _, [], h => by simp [cqlCmpPairs] at h
  | (a1, a2) :: r, (b1, b2) :: s, h => by
      simp only [cqlCmpPairs, ordThen_eq] at h
      obtain ⟨⟨h1, h2⟩, ⟨h3, h4⟩, h5⟩ := h
      rw [cqlCmp_eqv a1 b1 (ordThen_eq.mpr ⟨h1, h2⟩), cqlCmp_eqv a2 b2 (ordThen_eq.mpr ⟨h3, h4⟩),
        cqlCmpPairs_eqv r s h5]
termination_by l => sizeOf l

/-- `cqlCmpOpt` answers `eq` only on equal options. -/
def cqlCmpOpt_eqv : (o p : Option CqlValue) → cqlCmpOpt o p = .eq → o = p
  | none, none, _ => rfl
  | none, some _, h => by simp [cqlCmpOpt] at h
  | some _, none, h => by simp [cqlCmpOpt] at h
  | some a, some b, h => by
      simp only [cqlCmpOpt] at h
      exact congrArg _ (cqlCmp_eqv a b h)
termination_by o => sizeOf o

/-- `cqlCmpFields` answers `eq` only on equal lists. -/
def cqlCmpFields_eqv : (l m : List (String × Option CqlValue)) → cqlCmpFields l m = .eq → l = m
  | [], [], _ => rfl
  | [], _ :: _, h => by simp [cqlCmpFields] at h
  | _ :: _, [], h => by simp [cqlCmpFields] at h
  | (a1, a2) :: r, (b1, b2) :: s, h => by
      simp only [cqlCmpFields, ordThen_eq] at h
      obtain ⟨h1, h2, h3⟩ := h
      rw [strCmp_eq h1, cqlCmpOpt_eqv a2 b2 h2, cqlCmpFields_eqv r s h3]
termination_by l => sizeOf l

end
mutual

/-- Swapping the arguments of the derived `CqlValue` order flips the result. -/
def cqlCmp_swapv (a b : CqlValue) : (cqlCmp a b).swap = cqlCmp b a := by
  rw [show cqlCmp a b = ordThen (cmpo (ctorIdx a) (ctorIdx b)) (payCmp a b) from rfl,
    show cqlCmp b a = ordThen (cmpo (ctorIdx b) (ctorIdx a)) (payCmp b a) from rfl,
    ordThen_swap, cmpo_swap]
  suffices hp : (payCmp a b).swap = payCmp b a by rw [hp]
  cases a <;> cases b <;>
    first
      | rfl
      | (simp only [payCmp]; exact cmpo_swap _ _)
      | (simp only [payCmp]; exact strCmp_swap _ _)
      | (simp only [payCmp]; exact lexCmp_swap _ _)
      | (simp only [payCmp]; exact durCmp_swap _ _)
      | (simp only [payCmp]; exact ipCmp_swap _ _)
      | (simp only [payCmp]; exact cqlCmpList_swapv _ _)
      | (simp only [payCmp]; exact cqlCmpPairs_swapv _ _)
      | (simp only [payCmp]
         rw [ordThen_swap, ordThen_swap, strCmp_swap, strCmp_swap, cqlCmpFields_swapv _ _])
termination_by sizeOf a

/-- Swapping the arguments of `cqlCmpList` flips the result. -/
def cqlCmpList_swapv : (l m : List CqlValue) → (cqlCmpList l m).swap = cqlCmpList m l
  | [], [] => rfl
  | [], _ :: _ => rfl
  | _ :: _, [] => rfl
  | a :: r, b :: s => by
      rw [cqlCmpList_cons, cqlCmpList_cons, ordThen_swap, cqlCmp_swapv a b,
        cqlCmpList_swapv r s]
termination_by l => sizeOf l

/-- Swapping the arguments of `cqlCmpPairs` flips the result. -/
def cqlCmpPairs_swapv : (l m : List (CqlValue × CqlValue)) → (cqlCmpPairs l m).swap = cqlCmpPairs m l
  | [], [] => rfl
  | [], _ :: _ => rfl
  | _ :: _, [] => rfl
  | (a1, a2) :: r, (b1, b2) :: s => by
      rw [cqlCmpPairs_cons, cqlCmpPairs_cons, ordThen_swap, ordThen_swap,
        cqlCmp_swapv a1 b1, cqlCmp_swapv a2 b2, cqlCmpPairs_swapv r s]
termination_by l => sizeOf l

/-- Swapping the arguments of `cqlCmpOpt` flips the result. -/
def cqlCmpOpt_swapv : (o p : Option CqlValue) → (cqlCmpOpt o p).swap = cqlCmpOpt p o
  | none, none => rfl
  | none, some _ => rfl
  | some _, none => rfl
  | some a, some b => by
      rw [cqlCmpOpt_some, cqlCmpOpt_some, cqlCmp_swapv a b]
termination_by o => sizeOf o

/-- Swapping the arguments of `cqlCmpFields` flips the result. -/
def cqlCmpFields_swapv :
    (l m : List (String × Option CqlValue)) → (cqlCmpFields l m).swap = cqlCmpFields m l
  | [], [] => rfl
  | [], _ :: _ => rfl
  | _ :: _, [] => rfl
  | (a1, a2) :: r, (b1, b2) :: s => by
      simp only [cqlCmpFields]
      rw [ordThen_swap, ordThen_swap, strCmp_swap a1 b1, cqlCmpOpt_swapv a2 b2,
        cqlCmpFields_swapv r s]
termination_by l => sizeOf l

end

/-- Equality of `CqlValue`s is decidable, via the derived total order. -/
instance : DecidableEq CqlValue := fun a b =>
  decidable_of_iff (cqlCmp a b = .eq) ⟨cqlCmp_eqv a b, fun h => h ▸ cqlCmp_refl a⟩

/-- `Empty` compares strictly above every other `CqlValue`: it is the last
declared variant, so the derived order makes it the strict maximum. -/
def cqlCmp_empty_gt (v : CqlValue) (h : v ≠ .Empty) : cqlCmp .Empty v = .gt := by
  cases v <;> first | rfl | exact absurd rfl h

/-- No `CqlValue` compares above `Empty`. -/
def cqlCmp_le_empty (v : CqlValue) : cqlCmp v .Empty ≠ .gt := by
  intro h
  by_cases hv : v = .Empty
  · subst hv; exact absurd h (by decide)
  · have h2 := cqlCmp_swapv v .Empty
    rw [h, cqlCmp_empty_gt v hv] at h2
    exact absurd h2 (by decide)
/-- `ClusteringKeyValue` from value.rs: `Simple(Option<CqlValue>)`,
`Composite(Vec<Option<CqlValue>>)` and the `Empty` upper-range sentinel,
declared last. -/
inductive ClusteringKeyValue where
  | Simple (v : Option CqlValue)
  | Composite (vs : List (Option CqlValue))
  | Empty
deriving DecidableEq

/-- Variant index of `ClusteringKeyValue` in declaration order. -/
def ckIdx : ClusteringKeyValue → Nat
  | .Simple _ => 0
  | .Composite _ => 1
  | .Empty => 2

/-- Lexicographic comparison of clustering slots (`Vec<Option<CqlValue>>`). -/
def ckOptListCmp : List (Option CqlValue) → List (Option CqlValue) → Ordering
  | [], [] => .eq
  | [], _ :: _ => .lt
  | _ :: _, [] => .gt
  | a :: as_, b :: bs => ordThen (cqlCmpOpt a b) (ckOptListCmp as_ bs)

/-- The derived total order of `ClusteringKeyValue`: variant index first
(`Simple < Composite < Empty`), then the payload. -/
def ckCmp : ClusteringKeyValue → ClusteringKeyValue → Ordering
  | .Simple x, .Simple y => cqlCmpOpt x y
  | .Composite x, .Composite y => ckOptListCmp x y
  | .Empty, .Empty => .eq
  | x, y => cmpo (ckIdx x) (ckIdx y)

/-- `PartitionKeyValue` from value.rs. -/
inductive PartitionKeyValue where
  | Simple (v : CqlValue)
  | Composite (vs : List CqlValue)
  | Empty
deriving DecidableEq

/-- Variant index of `PartitionKeyValue` in declaration order. -/
def pkIdx : PartitionKeyValue → Nat
  | .Simple _ => 0
  | .Composite _ => 1
  | .Empty => 2

/-- The derived total order of `PartitionKeyValue`. -/
def pkCmp : PartitionKeyValue → PartitionKeyValue → Ordering
  | .Simple x, .Simple y => cqlCmp x y
  | .Composite x, .Composite y => cqlCmpList x y
  | .Empty, .Empty => .eq
  | x, y => cmpo (pkIdx x) (pkIdx y)

/-- `impl From<CqlValue> for ClusteringKeyValue` (value.rs): `Empty` stays
the sentinel, a `Tuple` becomes a composite of present slots, anything else
a simple present slot. -/
def clusteringFromCql : CqlValue → ClusteringKeyValue
  | .Empty => .Empty
  | .Tuple values => .Composite (values.map some)
  | v => .Simple (some v)

/-- `impl From<CqlValue> for PartitionKeyValue` (value.rs). -/
def partitionFromCql : CqlValue → PartitionKeyValue
  | .Empty => .Empty
  | .Tuple values => .Composite values
  | v => .Simple v

/-- `ClusteringKeyValueRange` from value.rs. -/
inductive ClusteringKeyValueRange where
  | Full
  | From (v : ClusteringKeyValue)
  | To (v : ClusteringKeyValue)
  | Range (lo hi : ClusteringKeyValue)
deriving DecidableEq

/-- `true` unless the comparison answered `gt`. -/
def notGt : Ordering → Bool
  | .gt => false
  | _ => true

/-- Containment in a `ClusteringKeyValueRange` under the `RangeBounds`
implementation of value.rs: the start bound is `Included` (or unbounded for
`Full`/`To`), the end bound is `Included` (or unbounded for `Full`/`From`). -/
def ckRangeContains (r : ClusteringKeyValueRange) (k : ClusteringKeyValue) : Bool :=
  (match r with
    | .Full => true
    | .From v => notGt (ckCmp v k)
    | .To _ => true
    | .Range v _ => notGt (ckCmp v k)) &&
  (match r with
    | .Full => true
    | .From _ => true
    | .To v => notGt (ckCmp k v)
    | .Range _ v => notGt (ckCmp k v))

/-- The `DbError` kinds of error.rs that this development refers to. -/
inductive DbErrorM where
  | serverError
  | protocolError
  | syntaxError
  | invalid
  | alreadyExists (keyspace : String) (table : String)
  | unprepared (statement_id : List Nat)
deriving DecidableEq

/-- First-match lookup in an association list (the model of `HashMap::get`,
and of `BTreeMap::get` on the sorted lists this file maintains). -/
def alistGet {β : Type} (k : String) : List (String × β) → Option β
  | [] => none
  | (k2, v) :: rest => if k = k2 then some v else alistGet k rest

/-- In-place insert-or-replace in an association list (the model of
`HashMap::insert`; a fresh key is appended). -/
def alistPut {β : Type} (k : String) (v : β) : List (String × β) → List (String × β)
  | [] => [(k, v)]
  | (k2, v2) :: rest => if k = k2 then (k, v) :: rest else (k2, v2) :: alistPut k v rest

/-- Lookup in a sorted association list keyed by `cmp` (the model of
`BTreeMap::get`). -/
def sortedGet {κ β : Type} (cmp : κ → κ → Ordering) (k : κ) : List (κ × β) → Option β
  | [] => none
  | (k2, v) :: rest => match cmp k k2 with
      | .eq => some v
      | _ => sortedGet cmp k rest

/-- Insert-or-update in a sorted association list (the model of
`BTreeMap::entry`): `f none` is stored for a fresh key, `f (some old)`
replaces an existing binding, keys stay in ascending `cmp` order. -/
def sortedUpdate {κ β : Type} (cmp : κ → κ → Ordering) (k : κ) (f : Option β → β) :
    List (κ × β) → List (κ × β)
  | [] => [(k, f none)]
  | (k2, v2) :: rest => match cmp k k2 with
      | .lt => (k, f none) :: (k2, v2) :: rest
      | .eq => (k2, f (some v2)) :: rest
      | .gt => (k2, v2) :: sortedUpdate cmp k f rest

/-- Removal from a sorted association list (the model of `BTreeMap::remove`). -/
def sortedRemove {κ β : Type} (cmp : κ → κ → Ordering) (k : κ) :
    List (κ × β) → List (κ × β)
  | [] => []
  | (k2, v2) :: rest => match cmp k k2 with
      | .lt => (k2, v2) :: rest
      | .eq => rest
      | .gt => (k2, v2) :: sortedRemove cmp k rest

/-- A stored row: `BTreeMap<String, CqlValue>` (memory.rs `RowValues`),
kept sorted by `strCmp`. -/
abbrev RowValues : Type := List (String × CqlValue)

/-- A partition: `BTreeMap<ClusteringKeyValue, RowValues>`, sorted by `ckCmp`. -/
abbrev PartitionData : Type := List (ClusteringKeyValue × RowValues)

/-- A table: `BTreeMap<PartitionKeyValue, ...>`, sorted by `pkCmp`
(memory.rs `Table`). -/
abbrev TableData : Type := List (PartitionKeyValue × PartitionData)

/-- A keyspace: `HashMap<String, Table>` (memory.rs `Keyspace`). -/
abbrev KeyspaceData : Type := List (String × TableData)

/-- The in-memory storage engine (memory.rs `Memory`): keyspace name →
table name → partition → clustering row → column map. -/
structure Memory where
  data : List (String × KeyspaceData)

/-- The `extend` of a `BTreeMap<String, _>` with a sequence of
(name, value) pairs: each pair is upserted in order, later duplicates
overwriting (used by `Memory::write` and by `serialize_columns`). -/
def rowPutAll {α : Type} (r : List (String × α)) (vs : List (String × α)) :
    List (String × α) :=
  vs.foldl (fun acc kv => sortedUpdate strCmp kv.1 (fun _ => kv.2) acc) r

/-- `Memory::write` (memory.rs): navigate with `entry().or_default()` at
every level and `extend` the row, overwriting overlapping columns. -/
def Memory.write (m : Memory) (ks tbl : String) (pk : PartitionKeyValue)
    (ck : ClusteringKeyValue) (values : List (String × CqlValue)) : Memory :=
  let keyspace := (alistGet ks m.data).getD []
  let table := (alistGet tbl keyspace).getD []
  let table2 := sortedUpdate pkCmp pk
    (fun part => sortedUpdate ckCmp ck
      (fun row => rowPutAll (row.getD []) values)
      (part.getD []))
    table
  { data := alistPut ks (alistPut tbl table2 keyspace) m.data }

/-- `Memory::delete` (memory.rs): a missing keyspace or table is an error;
`ClusteringKeyValue::Empty` removes the entire partition; any other
clustering key removes that single clustering row (a missing partition is a
no-op).  The partition is NOT removed when its last row is deleted. -/
def Memory.delete (m : Memory) (ks tbl : String) (pk : PartitionKeyValue)
    (ck : ClusteringKeyValue) : Except DbErrorM Memory := do
  let some keyspace := alistGet ks m.data | throw .invalid
  let some table := alistGet tbl keyspace | throw .invalid
  let table2 :=
    match ck with
    | .Empty => sortedRemove pkCmp pk table
    | other =>
        match sortedGet pkCmp pk table with
        | none => table
        | some part => sortedUpdate pkCmp pk (fun _ => sortedRemove ckCmp other part) table
  pure { data := alistPut ks (alistPut tbl table2 keyspace) m.data }

/-- `Memory::read` (memory.rs): the rows of one partition whose clustering
key lies in the range, in the stored (ascending) order.  The source
navigates with `entry().or_default()`, which only materialises empty maps;
a missing keyspace, table or partition therefore yields no rows. -/
def Memory.readRows (m : Memory) (ks tbl : String) (pk : PartitionKeyValue)
    (r : ClusteringKeyValueRange) : List (ClusteringKeyValue × RowValues) :=
  match alistGet ks m.data with
  | none => []
  | some keyspace =>
    match alistGet tbl keyspace with
    | none => []
    | some table =>
      match sortedGet pkCmp pk table with
      | none => []
      | some part => part.filter (fun e => ckRangeContains r e.1)
/-- One LEB128 step bounded by fuel.  `integer_encoding::VarIntWriter` emits
7-bit groups, least significant first, high bit set on every group but the
last. -/
def uvarEncodeF : Nat → Nat → List Nat
  | 0, n => [n]
  | fuel + 1, n => if n < 128 then [n] else (n % 128 + 128) :: uvarEncodeF fuel (n / 128)

/-- `write::unsigned_varint` (write.rs): LEB128 of a `u64`.  Ten 7-bit
groups cover all 64 bits, so the fuel never runs out on the source's
domain. -/
def uvarEncode (n : Nat) : List Nat := uvarEncodeF 10 n

/-- `read_varint` of `integer_encoding`: parse one LEB128 integer, returning
the value and the remaining input. -/
def uvarDecode : List Nat → Option (Nat × List Nat)
  | [] => none
  | b :: rest =>
      if b < 128 then some (b, rest)
      else (uvarDecode rest).map (fun p => (b % 128 + 128 * p.1, p.2))

/-- Split off exactly `n` leading bytes (`nom::bytes::complete::take`). -/
def takeExact (n : Nat) (l : List Nat) : Option (List Nat × List Nat) :=
  if n ≤ l.length then some (l.take n, l.drop n) else none

/-- A `u32` in big-endian bytes (`BufMut::put_u32`). -/
def be32 (n : Nat) : List Nat :=
  [n / 2 ^ 24 % 256, n / 2 ^ 16 % 256, n / 2 ^ 8 % 256, n % 256]

/-- `w` bytes of `n`, big-endian. -/
def beBytes : Nat → Nat → List Nat
  | 0, _ => []
  | w + 1, n => n / 256 ^ w % 256 :: beBytes w n

/-- An `iN` in `w` bytes big-endian two's complement (`to_be_bytes`). -/
def beBytesInt (w : Nat) (i : Int) : List Nat :=
  beBytes w (i.emod (2 ^ (8 * w))).toNat

/-- `write::opt_buffer_varint` (write.rs): an optional byte string prefixed
by its length as an unsigned vint, where length 0 encodes absence. -/
def optBufferVarint : Option (List Nat) → List Nat
  | none => uvarEncode 0
  | some v => uvarEncode v.length ++ v

/-- `PagingState` from frame/value.rs. -/
structure PagingStateM where
  partition_key : Option (List Nat)
  row_mark : Option (List Nat)
  remaining : Nat
  remaining_in_partition : Nat
deriving DecidableEq

/-- `PagingState::encode` (frame/value.rs): the optional partition key, the
optional row mark, `remaining` and `remaining_in_partition`, each vint
framed, and the whole buffer wrapped as `[bytes]` (u32 length prefix). -/
def PagingStateM.encode (s : PagingStateM) : List Nat :=
  let b := optBufferVarint s.partition_key ++ optBufferVarint s.row_mark ++
    uvarEncode s.remaining ++ uvarEncode s.remaining_in_partition
  be32 b.length ++ b

/-- `parse::bytes_opt` (frame/parse.rs): a `[bytes]` value, i32 length
prefix, negative length meaning absent. -/
def bytesOpt (input : List Nat) : Option (List Nat × Option (List Nat)) := do
  let (lenBytes, rest) ← takeExact 4 input
  let n := lenBytes.foldl (fun acc b => acc * 256 + b) 0
  if n < 2 ^ 31 then
    let (bs, rest2) ← takeExact n rest
    pure (rest2, some bs)
  else
    pure (rest, none)

/-- The local `bytes_with_vint` of `paging_state` in
frame/request/query_params.rs.  NOTE: on a zero length this helper returns
the ORIGINAL input (`Ok((input, None))`), leaving the zero vint byte
unconsumed — unlike its sibling `parse::bytes_with_vint` in frame/parse.rs,
which returns the advanced `rest`. -/
def bytesWithVintBug (input : List Nat) : Option (List Nat × Option (List Nat)) := do
  let (len, rest) ← uvarDecode input
  if len = 0 then
    pure (input, none)
  else
    let (bs, rest2) ← takeExact len rest
    pure (rest2, some bs)

/-- `paging_state` (frame/request/query_params.rs): the decoder for the
layout produced by `PagingState::encode`. -/
def pagingStateParse (input : List Nat) : Option (PagingStateM × List Nat) := do
  let (rest, partition_key) ← bytesWithVintBug input
  let (rest, row_mark) ← bytesWithVintBug rest
  let (remaining, rest) ← uvarDecode rest
  let (remaining_in_partition, rest) ← uvarDecode rest
  pure (⟨partition_key, row_mark, remaining, remaining_in_partition⟩, rest)

/-- `opt_paging_state` (frame/request/query_params.rs): unwrap the `[bytes]`
framing, then parse the paging state from the inner buffer. -/
def optPagingState (input : List Nat) : Option (List Nat × Option PagingStateM) := do
  let (rest, enc) ← bytesOpt input
  match enc with
  | some e => do
      let (st, _) ← pagingStateParse e
      pure (rest, some st)
  | none => pure (rest, none)

/-- UTF-8 bytes of a code point. -/
def utf8Enc (c : Nat) : List Nat :=
  if c < 0x80 then [c]
  else if c < 0x800 then [0xC0 + c / 64, 0x80 + c % 64]
  else if c < 0x10000 then [0xE0 + c / 4096, 0x80 + c / 64 % 64, 0x80 + c % 64]
  else [0xF0 + c / 262144, 0x80 + c / 4096 % 64, 0x80 + c / 64 % 64, 0x80 + c % 64]

/-- UTF-8 bytes of a string (the `as_bytes` view of a Rust `String`). -/
def strBytes (s : String) : List Nat := (s.data.map (fun ch => utf8Enc ch.toNat)).flatten
mutual

/-- `cql_value_without_size` (write.rs): the length-free storage encoding of
a value.  Variable-length payloads carry an unsigned-vint length, fixed
width numerics are big-endian, collections carry a vint byte count and a
vint element count.  The arms that are `unimplemented!()` in the source
(`Decimal`, `Duration`, `UserDefinedType`, `Varint`) panic there; they are
modelled as producing no bytes and are exercised by no claim. -/
def cqlValueWithoutSize : CqlValue → List Nat
  | .Ascii v => uvarEncode (strBytes v).length ++ strBytes v
  | .Boolean b => [if b then 1 else 0]
  | .Blob v => uvarEncode v.length ++ v
  | .Counter i => beBytesInt 8 i
  | .Decimal _ => []
  | .Date i => beBytes 4 i
  | .Double f => beBytes 8 f
  | .Duration _ => []
  | .Empty => []
  | .Float v => beBytes 4 v
  | .Int v => beBytesInt 4 v
  | .BigInt v => beBytesInt 8 v
  | .Text t => uvarEncode (strBytes t).length ++ strBytes t
  | .Timestamp v => beBytesInt 8 v
  | .Inet (.V4 ip) => 4 :: beBytes 4 ip
  | .Inet (.V6 ip) => 16 :: beBytes 16 ip
  | .List list =>
      let bytes := cvwsList list
      uvarEncode (4 + bytes.length) ++ uvarEncode list.length ++ bytes
  | .Set list =>
      let bytes := cvwsList list
      uvarEncode (4 + bytes.length) ++ uvarEncode list.length ++ bytes
  | .Map map =>
      let bytes := cvwsPairs map
      uvarEncode (4 + bytes.length) ++ uvarEncode map.length ++ bytes
  | .SmallInt i => beBytesInt 2 i
  | .TinyInt i => beBytesInt 1 i
  | .Time i => beBytesInt 8 i
  | .Timeuuid u => beBytes 16 u
  | .Tuple values => cvwsTuple values
  | .UserDefinedType _ _ _ => []
  | .Uuid u => beBytes 16 u
  | .Varint _ => []
termination_by structural a => a

/-- Concatenated encodings of the elements of a list or set. -/
def cvwsList : List CqlValue → List Nat
  | [] => []
  | v :: rest => cqlValueWithoutSize v ++ cvwsList rest
termination_by structural l => l

/-- Concatenated encodings of the entries of a map. -/
def cvwsPairs : List (CqlValue × CqlValue) → List Nat
  | [] => []
  | (k, v) :: rest => cqlValueWithoutSize k ++ cqlValueWithoutSize v ++ cvwsPairs rest
termination_by structural l => l

/-- Tuple slots: an `Empty` slot is written as the single byte `0xFF`
(`put_i8(-1)`), other slots recurse without framing. -/
def cvwsTuple : List CqlValue → List Nat
  | [] => []
  | v :: rest =>
      (match v with
        | .Empty => [255]
        | x => cqlValueWithoutSize x) ++ cvwsTuple rest
termination_by structural l => l

end

/-- The slot list of a clustering key, as iterated by
`impl IntoIterator for &ClusteringKeyValue` (value.rs). -/
def clusteringSlots : ClusteringKeyValue → List (Option CqlValue)
  | .Simple v => [v]
  | .Composite vs => vs
  | .Empty => []

/-- The `make_header` bitfield of `write::clustering_value` (write.rs): for
slot `i` (global index) bit `2i+1` marks a null slot and bit `2i` marks an
`Empty` slot.  The source shifts within a `u64`; the shift distance is
reduced mod 64 as Rust release builds do (only keys wider than 32 slots are
affected). -/
def clusteringHeader (chunk : List (Option CqlValue)) (offset : Nat) : Nat :=
  (chunk.foldl
    (fun acc v =>
      (acc.1 |||
        (match v with
          | none => 2 ^ ((acc.2 * 2 + 1) % 64)
          | some .Empty => 2 ^ (acc.2 * 2 % 64)
          | some _ => 0),
       acc.2 + 1))
    (0, offset)).1

/-- The value bytes of one 32-slot chunk: null and `Empty` slots are
skipped, the rest are `cql_value_without_size` encoded. -/
def clusteringChunkValues (chunk : List (Option CqlValue)) : List Nat :=
  (chunk.map (fun v => match v with
    | none => []
    | some .Empty => []
    | some x => cqlValueWithoutSize x)).flatten

/-- The chunk loop of `write::clustering_value`: one vint header per group
of 32 slots, each followed by the group's value bytes.  The fuel is the
slot count, which bounds the number of groups. -/
def clusteringGroupsF : Nat → List (Option CqlValue) → Nat → List Nat
  | _, [], _ => []
  | 0, _, _ => []
  | fuel + 1, l, offset =>
      uvarEncode (clusteringHeader (l.take 32) offset) ++
        clusteringChunkValues (l.take 32) ++
        clusteringGroupsF fuel (l.drop 32) (offset + 32)

/-- `write::clustering_value` (write.rs): the vint-headered storage encoding
of a clustering key; `ClusteringKeyValue::Empty` writes nothing. -/
def clusteringValueBytes (key : ClusteringKeyValue) : List Nat :=
  match key with
  | .Empty => []
  | k => clusteringGroupsF (clusteringSlots k).length (clusteringSlots k) 0
/-- `PrimaryKey` from cql/schema/table.rs. -/
inductive PrimaryKeyM where
  | Empty
  | Simple (name : String)
  | Composite (names : List String)
deriving DecidableEq

/-- `PrimaryKey::count`. -/
def PrimaryKeyM.count : PrimaryKeyM → Nat
  | .Empty => 0
  | .Simple _ => 1
  | .Composite v => v.length

/-- The loop of `DataPayload::get_clustering_key_range` over composite
clustering columns (data_reader.rs lines 101-114): walk the declared
columns in order, stop (`break`) at the first column absent from the
payload, and fail with `Invalid` on a column bound to null. -/
def collectClusteringValues (raw : List (String × Option CqlValue)) :
    List String → Except DbErrorM (List (Option CqlValue))
  | [] => .ok []
  | key :: rest =>
      match alistGet key raw with
      | none => .ok []
      | some none => .error .invalid
      | some (some v) => do
          let tail ← collectClusteringValues raw rest
          .ok (some v :: tail)

/-- `DataPayload::get_clustering_key_range` (data_reader.rs): no clustering
key yields the full range; a simple clustering column bound to a value `v`
yields `From(Simple(Some v))` (no upper bound) and yields the full range
when absent or null; a composite clustering key yields
`Range(Composite(prefix), Composite(prefix padded with Some(Empty) to the
full width))`. -/
def getClusteringKeyRange (clustering_key : PrimaryKeyM)
    (raw : List (String × Option CqlValue)) : Except DbErrorM ClusteringKeyValueRange :=
  match clustering_key with
  | .Empty => .ok .Full
  | .Simple key =>
      match (alistGet key raw).bind id with
      | some value => .ok (.From (.Simple (some value)))
      | none => .ok .Full
  | .Composite keys => do
      let values ← collectClusteringValues raw keys
      let upper := values ++ List.replicate (clustering_key.count - values.length) (some .Empty)
      .ok (.Range (.Composite values) (.Composite upper))

/-- `ColumnType` from cql/schema/column.rs. -/
inductive ColumnTypeM where
  | Custom (s : String)
  | Ascii
  | Boolean
  | Blob
  | Counter
  | Date
  | Decimal
  | Double
  | Duration
  | Float
  | Int
  | BigInt
  | Text
  | Timestamp
  | Inet
  | List (t : ColumnTypeM)
  | Map (k v : ColumnTypeM)
  | Set (t : ColumnTypeM)
  | UserDefinedType (type_name : String) (keyspace : String)
      (field_types : List (String × ColumnTypeM))
  | SmallInt
  | TinyInt
  | Time
  | Timeuuid
  | Tuple (ts : List ColumnTypeM)
  | Uuid
  | Varint

/-- `TableSpec` from frame/response/result.rs. -/
structure TableSpecM where
  ks_name : String
  table_name : String

/-- `ColumnSpec` from frame/response/result.rs. -/
structure ColumnSpecM where
  table_spec : Option TableSpecM
  name : String
  typ : ColumnTypeM

/-- `ResultMetadata` as used by the cited execution/select.rs: a global
table spec, an optional paging state and the per-column specs. -/
structure ResultMetadataM where
  global_spec : Option TableSpecM
  paging_state : Option PagingStateM
  col_specs : List ColumnSpecM

/-- A result row (frame/response/result.rs `Row`). -/
structure RowM where
  columns : List (Option CqlValue)

/-- `Rows` from frame/response/result.rs. -/
structure RowsM where
  metadata : ResultMetadataM
  rows : List RowM

/-- `Transform` from cql/execution/selector.rs. -/
inductive TransformM where
  | Identity
  | ToJson
deriving DecidableEq

/-- `ColumnSelector` from cql/execution/selector.rs. -/
structure ColumnSelectorM where
  name : String
  transform : TransformM

/-- Escape one character as serde_json does inside a JSON string. -/
def jsonEscapeChar (c : Char) : List Char :=
  if c = Char.ofNat 34 then [Char.ofNat 92, Char.ofNat 34]
  else if c = Char.ofNat 92 then [Char.ofNat 92, Char.ofNat 92]
  else if c.toNat = 8 then [Char.ofNat 92, Char.ofNat 98]
  else if c.toNat = 9 then [Char.ofNat 92, Char.ofNat 116]
  else if c.toNat = 10 then [Char.ofNat 92, Char.ofNat 110]
  else if c.toNat = 12 then [Char.ofNat 92, Char.ofNat 102]
  else if c.toNat = 13 then [Char.ofNat 92, Char.ofNat 114]
  else if c.toNat < 32 then
    [Char.ofNat 92, Char.ofNat 117, Char.ofNat 48, Char.ofNat 48,
      Char.ofNat (if c.toNat / 16 < 10 then 48 + c.toNat / 16 else 87 + c.toNat / 16),
      Char.ofNat (if c.toNat % 16 < 10 then 48 + c.toNat % 16 else 87 + c.toNat % 16)]
  else [c]

/-- A JSON string literal for `s` (quoted, escaped). -/
def jsonString (s : String) : String :=
  String.mk (Char.ofNat 34 :: (s.data.map jsonEscapeChar).flatten ++ [Char.ofNat 34])

mutual

/-- The serde_json rendering of `ValueSnapshot::from(v)` (snapshot/value.rs,
an untagged enum): numbers render in decimal, booleans and strings in their
JSON forms, blobs as byte arrays, lists/sets/tuples as arrays, maps with
text keys as objects, `Empty` (a unit variant) as `null`.  Variants whose
rendering depends on external formatting (floats, chrono timestamps, uuids,
inet, decimals, varints, durations, UDTs, maps with non-string keys) are
not modelled and yield `none`; no claim exercises them. -/
def jsonValue : CqlValue → Option String
  | .Ascii s => some (jsonString s)
  | .Text s => some (jsonString s)
  | .Boolean b => some (if b then "true" else "false")
  | .Blob bs => some ("[" ++ String.intercalate "," (bs.map toString) ++ "]")
  | .Counter i => some (toString i)
  | .Int i => some (toString i)
  | .BigInt i => some (toString i)
  | .SmallInt i => some (toString i)
  | .TinyInt i => some (toString i)
  | .Time i => some (toString i)
  | .Date n => some (toString n)
  | .Empty => some "null"
  | .Tuple vs => do pure ("[" ++ String.intercalate "," (← jsonValueList vs) ++ "]")
  | .List vs => do pure ("[" ++ String.intercalate "," (← jsonValueList vs) ++ "]")
  | .Set vs => do pure ("[" ++ String.intercalate "," (← jsonValueList vs) ++ "]")
  | _ => none
termination_by structural v => v

/-- Renderings of the elements of a list. -/
def jsonValueList : List CqlValue → Option (List String)
  | [] => some []
  | v :: rest => do pure ((← jsonValue v) :: (← jsonValueList rest))
termination_by structural l => l

end

/-- `Transform::transform` (selector.rs): `Identity` passes the value
through; `ToJson` replaces it with the text of its JSON rendering.  Where
the rendering is outside the modelled subset the model yields `none`
(where the implementation would produce a string); no claim reaches that
case. -/
def transformApply : TransformM → CqlValue → Option CqlValue
  | .Identity, v => some v
  | .ToJson, v => (jsonValue v).map .Text

/-- `selector::filter` (selector.rs): project the row through the selector
list, removing each selected column from the (mutable) row in turn, so a
repeated selector name finds nothing the second time. -/
def selectorFilter (row : RowValues) (sel : List ColumnSelectorM) : List (Option CqlValue) :=
  match sel with
  | [] => []
  | s :: rest =>
      let v := sortedGet strCmp s.name row
      let row2 := sortedRemove strCmp s.name row
      (v.bind (transformApply s.transform)) :: selectorFilter row2 rest

/-- `SelectNode` from the cited cql/execution/select.rs. -/
structure SelectNodeM where
  keyspace : String
  table : String
  partition_key : PartitionKeyValue
  clustering_range : ClusteringKeyValueRange
  selector : List ColumnSelectorM
  metadata : ResultMetadataM
  limit : Nat
  result_page_size : Nat

/-- The row-collection loop of `SelectNode::execute`: pull entries until
the iterator ends (no paging marker) or the page is full (the next, not yet
emitted entry becomes the marker). -/
def selectLoop (entries : List (ClusteringKeyValue × RowValues)) (pageSize : Nat) :
    List (ClusteringKeyValue × RowValues) × Option (ClusteringKeyValue × RowValues) :=
  match entries, pageSize with
  | [], _ => ([], none)
  | e :: _, 0 => ([], some e)
  | e :: rest, n + 1 =>
      let (rs, last) := selectLoop rest n
      (e :: rs, last)

/-- `SelectNode::execute` (execution/select.rs): read the partition over the
clustering range, bounded by `take(limit)`; collect at most
`result_page_size` rows through the selector; when a row is left over,
attach a paging state with no partition component, the vint-headered
encoding of the next row's clustering key as `row_mark`, and
`remaining = limit - rows.len()`. -/
def SelectNodeM.execute (node : SelectNodeM) (m : Memory) : RowsM :=
  let scan := (m.readRows node.keyspace node.table node.partition_key
    node.clustering_range).take node.limit
  let (collected, last_row) := selectLoop scan node.result_page_size
  let rows := collected.map (fun e => RowM.mk (selectorFilter e.2 node.selector))
  let metadata :=
    match last_row with
    | some e =>
        { node.metadata with
          paging_state := some
            ⟨none, some (clusteringValueBytes e.1), node.limit - rows.length, 1⟩ }
    | none => node.metadata
  ⟨metadata, rows⟩

/-- The `BTreeMap` accumulation of `serialize_columns` (execution/json.rs):
insert the (name, value) pairs in order into a map sorted by name, late
duplicates overwriting. -/
def sortedEntries {α : Type} (l : List (String × α)) : List (String × α) :=
  rowPutAll [] l

/-- One `name: value` member of the serialized JSON object; a `None` value
renders as `null`. -/
def renderEntry (e : String × Option CqlValue) : Option String := do
  pure (jsonString e.1 ++ ":" ++ (← match e.2 with
    | none => some "null"
    | some v => jsonValue v))

/-- The serde_json rendering of the sorted map as a JSON object. -/
def renderObject (entries : List (String × Option CqlValue)) : Option String :=
  (entries.mapM renderEntry).map
    (fun parts => "\x7b" ++ String.intercalate "," parts ++ "\x7d")

/-- `serialize_columns` (execution/json.rs): zip the column names with the
row's values into a `BTreeMap` (sorted by name, late duplicates
overwriting) and render it as a JSON object. -/
def serializeColumns (names : List String) (values : List (Option CqlValue)) :
    Option String :=
  renderObject (sortedEntries (names.zip values))

/-- `JsonNode::execute` (execution/json.rs) on a `Rows` result: keep the
global spec and paging state, replace the column specs with the single
column `json : Text`, and replace every row with one `Text` column holding
the row serialized as a JSON object keyed by the inner column names.
Outside the modelled rendering subset the fallback empty string stands
where the implementation would emit the real rendering; no claim reaches
it. -/
def jsonNodeTransform (r : RowsM) : RowsM :=
  let names := r.metadata.col_specs.map (fun c => c.name)
  let metadata : ResultMetadataM :=
    { global_spec := r.metadata.global_spec
      paging_state := r.metadata.paging_state
      col_specs := [⟨none, "json", .Text⟩] }
  let rows := r.rows.map (fun row =>
    RowM.mk [some (.Text ((serializeColumns names row.columns).getD ""))])
  ⟨metadata, rows⟩
/-- `Strategy` from cql/schema/keyspace.rs. -/
inductive StrategyM where
  | SimpleStrategy (replication_factor : Nat)
  | NetworkTopologyStrategy (datacenter_repfactors : List (String × Nat))
  | LocalStrategy
  | Other (name : String) (data : List (String × String))
deriving DecidableEq

/-- The `IntoStaticStr` name of a strategy variant. -/
def strategyStr : StrategyM → String
  | .SimpleStrategy _ => "SimpleStrategy"
  | .NetworkTopologyStrategy _ => "NetworkTopologyStrategy"
  | .LocalStrategy => "LocalStrategy"
  | .Other _ _ => "Other"

/-- `ColumnKind` from cql/schema/column.rs. -/
inductive ColumnKindM where
  | Regular
  | Static
  | Clustering
  | PartitionKey
deriving DecidableEq

/-- The `Display` string of a column kind. -/
def columnKindStr : ColumnKindM → String
  | .Regular => "regular"
  | .Static => "static"
  | .Clustering => "clustering"
  | .PartitionKey => "partition_key"

/-- `ColumnType::into_cql` (column.rs): the CQL name of a type.  The
`unimplemented!()` arms (`Custom`, `Counter`, `UserDefinedType`, `Tuple`)
panic in the source and are modelled as `none`. -/
def intoCql : ColumnTypeM → Option String
  | .Custom _ => none
  | .Ascii => some "ascii"
  | .Boolean => some "bool"
  | .Blob => some "blob"
  | .Counter => none
  | .Date => some "date"
  | .Decimal => some "bigint"
  | .Double => some "double"
  | .Duration => some "timestamp"
  | .Float => some "float"
  | .Int => some "int"
  | .BigInt => some "bigint"
  | .Text => some "text"
  | .Timestamp => some "timestamp"
  | .Inet => some "inet"
  | .List l => (intoCql l).map (fun s => "list<" ++ s ++ ">")
  | .Map k v => do pure ("map<" ++ (← intoCql k) ++ ", " ++ (← intoCql v) ++ ">")
  | .Set i => (intoCql i).map (fun s => "set<" ++ s ++ ">")
  | .UserDefinedType _ _ _ => none
  | .SmallInt => some "smallint"
  | .TinyInt => some "timyint"
  | .Time => some "time"
  | .Timeuuid => some "timeuuid"
  | .Tuple _ => none
  | .Uuid => some "uuid"
  | .Varint => some "varint"

/-- `Column` from cql/schema/column.rs. -/
structure ColumnM where
  ty : ColumnTypeM
  kind : ColumnKindM

/-- `TableSchema` from cql/schema/table.rs; `columns` is an `IndexMap`
(insertion-ordered), modelled as the ordered association list.  -/
structure TableSchemaM where
  columns : List (String × ColumnM)
  partition_key : PrimaryKeyM
  clustering_key : PrimaryKeyM
  partitioner : Option String

/-- `Table` from cql/schema/table.rs. -/
structure TableM where
  keyspace : String
  name : String
  schema : TableSchemaM

/-- `UserDefinedType` from cql/schema/keyspace.rs. -/
structure UserDefinedTypeM where
  name : String
  keyspace : String
  field_types : List (String × ColumnTypeM)

/-- `Keyspace` from cql/schema/keyspace.rs (`tables` is a `HashMap`). -/
structure KeyspaceM where
  name : String
  strategy : StrategyM
  tables : List (String × TableM)
  user_defined_types : List (String × UserDefinedTypeM)

/-- `Schema` from cql/schema/mod.rs: `BTreeMap<String, Keyspace>`, kept
sorted by name. -/
abbrev SchemaM : Type := List (String × KeyspaceM)

/-- `Schema::create_keyspace` (cql/schema/mod.rs): an occupied entry is
returned as-is under `ignore_existence` and is an `AlreadyExists` error
otherwise (with an empty table name); a vacant entry is filled with a fresh
keyspace, which is returned. -/
def schemaCreateKeyspace (s : SchemaM) (keyspace : String) (ignore_existence : Bool)
    (strategy : StrategyM) : Except DbErrorM (SchemaM × KeyspaceM) :=
  match alistGet keyspace s with
  | some ks =>
      if ignore_existence then .ok (s, ks)
      else .error (.alreadyExists keyspace "")
  | none =>
      let ks : KeyspaceM := ⟨keyspace, strategy, [], []⟩
      .ok (sortedUpdate strCmp keyspace (fun _ => ks) s, ks)

/-- `Schema::create_table` (cql/schema/mod.rs): a missing keyspace is
`Invalid`; an occupied table entry is returned as-is under
`ignore_existence` and is `AlreadyExists` otherwise; a vacant entry is
filled with a fresh table, which is returned. -/
def schemaCreateTable (s : SchemaM) (keyspace table : String) (ignore_existence : Bool)
    (schema : TableSchemaM) : Except DbErrorM (SchemaM × TableM) :=
  match alistGet keyspace s with
  | none => .error .invalid
  | some ks =>
      match alistGet table ks.tables with
      | some t =>
          if ignore_existence then .ok (s, t)
          else .error (.alreadyExists keyspace table)
      | none =>
          let t : TableM := ⟨keyspace, table, schema⟩
          let ks2 : KeyspaceM := { ks with tables := alistPut table t ks.tables }
          .ok (sortedUpdate strCmp keyspace (fun _ => ks2) s, t)

/-- `PersistedSchema::insert_keyspace` (persisted.rs): the
`system_schema.keyspaces` row for a keyspace (the key values pass through
the `From<CqlValue>` conversions of value.rs). -/
def insertKeyspaceRow (m : Memory) (ks : KeyspaceM) : Memory :=
  let pk : CqlValue := .Text ks.name
  let replication : List (CqlValue × CqlValue) :=
    [(.Text "class", .Text (strategyStr ks.strategy)),
     (.Text "replication_factor", .Text "1")]
  m.write "system_schema" "keyspaces" (partitionFromCql pk) (clusteringFromCql .Empty)
    [("keyspace_name", pk),
     ("durable_writes", .Boolean true),
     ("replication", .Map replication)]

/-- `PersistedSchema::insert_table` (persisted.rs): the
`system_schema.tables` row for a table. -/
def insertTableRow (m : Memory) (t : TableM) : Memory :=
  let pk : CqlValue := .Text t.keyspace
  let ck : CqlValue := .Text t.name
  m.write "system_schema" "tables" (partitionFromCql pk) (clusteringFromCql ck)
    [("keyspace_name", pk),
     ("table_name", ck),
     ("allow_auto_snapshot", .Boolean false),
     ("incremental_backups", .Boolean false),
     ("cdc", .Boolean false)]

/-- The row written by `PersistedSchema::insert_columns` for one column;
`order` is the partition or clustering rank, or −1 for regular and static
columns.  `into_cql().unwrap()` panics in the source where `intoCql` is
`none`; the fallback empty string is never reached by a claim. -/
def insertColumnRow (m : Memory) (t : TableM) (column_name : String) (spec : ColumnM)
    (order : Int) : Memory :=
  let pk : CqlValue := .Text t.keyspace
  let ck : CqlValue := .Tuple [.Text t.name, .Text column_name]
  m.write "system_schema" "columns" (partitionFromCql pk) (clusteringFromCql ck)
    [("keyspace_name", pk),
     ("table_name", .Text t.name),
     ("column_name", .Text column_name),
     ("clustering_order", .Text "none"),
     ("column_name_bytes", .Blob (strBytes column_name)),
     ("kind", .Text (columnKindStr spec.kind)),
     ("position", .Int order),
     ("type", .Text ((intoCql spec.ty).getD ""))]

/-- The counter loop of `PersistedSchema::insert_columns` (persisted.rs):
walk the declared columns in order, ranking partition-key and clustering
columns independently from 0. -/
def insertColumnsLoop (m : Memory) (t : TableM) :
    List (String × ColumnM) → Int → Int → Memory
  | [], _, _ => m
  | (name, spec) :: rest, partitionOrder, clusteringOrder =>
      match spec.kind with
      | .Regular => insertColumnsLoop (insertColumnRow m t name spec (-1)) t rest
          partitionOrder clusteringOrder
      | .Static => insertColumnsLoop (insertColumnRow m t name spec (-1)) t rest
          partitionOrder clusteringOrder
      | .Clustering => insertColumnsLoop (insertColumnRow m t name spec (clusteringOrder + 1)) t
          rest partitionOrder (clusteringOrder + 1)
      | .PartitionKey => insertColumnsLoop (insertColumnRow m t name spec (partitionOrder + 1)) t
          rest (partitionOrder + 1) clusteringOrder

/-- `PersistedSchema::insert_columns` (persisted.rs). -/
def insertColumnsRows (m : Memory) (t : TableM) : Memory :=
  insertColumnsLoop m t t.schema.columns (-1) (-1)

/-- `PersistedSchema::create_keyspace` (persisted.rs): create in the schema
catalog, then materialise the `system_schema.keyspaces` row; a catalog
error propagates before anything is written. -/
def persistedCreateKeyspace (schema : SchemaM) (m : Memory) (keyspace : String)
    (ignore_existence : Bool) (strategy : StrategyM) :
    Except DbErrorM (SchemaM × Memory × KeyspaceM) := do
  let (schema2, ks) ← schemaCreateKeyspace schema keyspace ignore_existence strategy
  .ok (schema2, insertKeyspaceRow m ks, ks)

/-- `PersistedSchema::create_table` (persisted.rs): create in the schema
catalog, then materialise the `system_schema.tables` and
`system_schema.columns` rows; a catalog error propagates before anything is
written.  The source also accepts an `options` vector that it stores
nowhere and never reads. -/
def persistedCreateTable (schema : SchemaM) (m : Memory) (keyspace table : String)
    (ignore_existence : Bool) (tschema : TableSchemaM) :
    Except DbErrorM (SchemaM × Memory × TableM) := do
  let (schema2, t) ← schemaCreateTable schema keyspace table ignore_existence tschema
  .ok (schema2, insertColumnsRows (insertTableRow m t) t, t)

/-- `QueryResult` variants this development refers to
(frame/response/result.rs). -/
inductive QueryResultM where
  | Void
  | Rows (r : RowsM)
  | SetKeyspace (keyspace_name : String)
  | SchemaChange
  | Prepared (id : Nat)

/-- Lookup in the prepared-query cache (`HashMap<u128, QueryString>`,
query_cache/persisted.rs). -/
def natGet {β : Type} (k : Nat) : List (Nat × β) → Option β
  | [] => none
  | (k2, v) :: rest => if k = k2 then some v else natGet k rest

/-- Insert into the prepared-query cache. -/
def natPut {β : Type} (k : Nat) (v : β) : List (Nat × β) → List (Nat × β)
  | [] => [(k, v)]
  | (k2, v2) :: rest => if k = k2 then (k, v) :: rest else (k2, v2) :: natPut k v rest

/-- `u128::from_be_bytes` on a 16-byte id. -/
def beNat (l : List Nat) : Nat := l.foldl (fun a b => a * 256 + b) 0

/-- `KvEngine` as the session sees it (engine/kv.rs): the prepared-query
cache plus the rest of the engine state, over which the session is
generic.  `Q` is the cached statement type (`QueryString`), `St` the
storage-and-schema state. -/
structure KvEngineM (Q St : Type) where
  query_cache : List (Nat × Q)
  store : St

/-- `PersistedQueryCache::retrieve` (query_cache/persisted.rs): a pure
lookup — it mutates nothing. -/
def KvEngineM.retrieve {Q St : Type} (e : KvEngineM Q St) (id : Nat) : Option Q :=
  natGet id e.query_cache

/-- `PersistedQueryCache::store` (query_cache/persisted.rs). -/
def KvEngineM.storeQuery {Q St : Type} (e : KvEngineM Q St) (id : Nat) (q : Q) :
    KvEngineM Q St :=
  { e with query_cache := natPut id q e.query_cache }

/-- The success path of `KassandraSession::prepare_with_id` (session.rs):
after `Plan::prepare` succeeds, the statement text is stored under the
fresh id. -/
def sessionPrepareWithId {Q St : Type} (e : KvEngineM Q St) (id : Nat) (q : Q) :
    KvEngineM Q St :=
  e.storeQuery id q

/-- `KassandraSession::execute` (session.rs): an id that is not 16 bytes is
`Invalid`; an id absent from the prepared cache is `Unprepared`, echoing
the supplied bytes, and the engine is left untouched; a cached statement is
re-processed (`self.process`) with the supplied parameters.  `process` —
planning plus execution over the generic engine — is a parameter, exactly
as the session is generic over the engine in the source. -/
def sessionExecute {Q St P R : Type}
    (process : KvEngineM Q St → Q → P → KvEngineM Q St × Except DbErrorM R)
    (e : KvEngineM Q St) (idBytes : List Nat) (params : P) :
    KvEngineM Q St × Except DbErrorM R :=
  if idBytes.length = 16 then
    match e.retrieve (beNat idBytes) with
    | none => (e, .error (.unprepared idBytes))
    | some q => process e q params
  else (e, .error .invalid)

/-- `BatchStatement` from frame/request/batch.rs: a raw query or a prepared
statement id, each with bind values. -/
inductive BatchStatementM (Q V : Type) where
  | query (q : Q) (values : V)
  | prepared (id : List Nat) (values : V)

/-- The per-statement resolution step of `KassandraSession::process_batch`
(session.rs): a raw query passes through; a prepared statement id must be
16 bytes (`Invalid` otherwise) and present in the cache (`Unprepared`,
echoing the id bytes, otherwise). -/
def resolveBatchStatement {Q St V : Type} (e : KvEngineM Q St) :
    BatchStatementM Q V → Except DbErrorM (Q × V)
  | .query q values => .ok (q, values)
  | .prepared idBytes values =>
      if idBytes.length = 16 then
        match e.retrieve (beNat idBytes) with
        | none => .error (.unprepared idBytes)
        | some q => .ok (q, values)
      else .error .invalid

/-- `KassandraSession::process_batch` (session.rs): execute the statements
in order through `self.process`; a malformed or unknown prepared id, or a
failing statement, stops the batch at that point and returns that error —
the engine keeps every effect already applied; when every statement
succeeds the batch returns `Void`. -/
def processBatch {Q St V R : Type}
    (process : KvEngineM Q St → Q → V → KvEngineM Q St × Except DbErrorM R) :
    List (BatchStatementM Q V) → KvEngineM Q St →
      KvEngineM Q St × Except DbErrorM QueryResultM
  | [], e => (e, .ok .Void)
  | stmt :: rest, e =>
      match resolveBatchStatement e stmt with
      | .error er => (e, .error er)
      | .ok (q, values) =>
          match process e q values with
          | (e2, .error er) => (e2, .error er)
          | (e2, .ok _) => processBatch process rest e2

/-- Modification of one table of one keyspace in place: the common shape of
every `Memory` mutation (navigate with `entry().or_default()`, transform the
table, store the result back). -/
def modifyTable (m : Memory) (ks tbl : String) (phi : TableData → TableData) : Memory :=
  { data := alistPut ks
      (alistPut tbl
        (phi ((alistGet tbl ((alistGet ks m.data).getD [])).getD []))
        ((alistGet ks m.data).getD []))
      m.data }

/-- A sequence of keyed updates applied to a sorted association list in
order. -/
def updAll {κ β : Type} (cmp : κ → κ → Ordering) (ps : List (κ × (Option β → β)))
    (l : List (κ × β)) : List (κ × β) :=
  ps.foldl (fun acc p => sortedUpdate cmp p.1 p.2 acc) l

/-- A sequence of `Memory::write`s into the same keyspace, table and
partition. -/
def applyWrites (m : Memory) (ks tbl : String) (pk : PartitionKeyValue)
    (rows : List (ClusteringKeyValue × List (String × CqlValue))) : Memory :=
  rows.foldl (fun acc r => acc.write ks tbl pk r.1 r.2) m

/-- The (clustering key, row values) pairs written by
`PersistedSchema::insert_columns` (persisted.rs), collected in loop order
with the same partition/clustering rank counters as `insertColumnsLoop`. -/
def columnRowsList (t : TableM) :
    List (String × ColumnM) → Int → Int → List (ClusteringKeyValue × List (String × CqlValue))
  | [], _, _ => []
  | (name, spec) :: rest, partitionOrder, clusteringOrder =>
      let emit : Int → List (ClusteringKeyValue × List (String × CqlValue)) := fun order =>
        [(clusteringFromCql (.Tuple [.Text t.name, .Text name]),
          [("keyspace_name", .Text t.keyspace),
           ("table_name", .Text t.name),
           ("column_name", .Text name),
           ("clustering_order", .Text "none"),
           ("column_name_bytes", .Blob (strBytes name)),
           ("kind", .Text (columnKindStr spec.kind)),
           ("position", .Int order),
           ("type", .Text ((intoCql spec.ty).getD ""))])]
      match spec.kind with
      | .Regular => emit (-1) ++ columnRowsList t rest partitionOrder clusteringOrder
      | .Static => emit (-1) ++ columnRowsList t rest partitionOrder clusteringOrder
      | .Clustering => emit (clusteringOrder + 1) ++
          columnRowsList t rest partitionOrder (clusteringOrder + 1)
      | .PartitionKey => emit (partitionOrder + 1) ++
          columnRowsList t rest (partitionOrder + 1) clusteringOrder

/-- Success of every statement of a batch prefix: each statement resolves
and processes successfully, threading the engine state to `e1`. -/
def batchAllSucceed {Q St V R : Type}
    (process : KvEngineM Q St → Q → V → KvEngineM Q St × Except DbErrorM R) :
    List (BatchStatementM Q V) → KvEngineM Q St → KvEngineM Q St → Prop
  | [], e, e1 => e1 = e
  | stmt :: rest, e, e1 => ∃ q values e2 r,
      resolveBatchStatement e stmt = .ok (q, values) ∧
      process e q values = (e2, .ok r) ∧
      batchAllSucceed process rest e2 e1

/-- `ordThen` answers `lt` when the first comparison does, or ties and the
second does. -/
def ordThen_lt_iff {a b : Ordering} : ordThen a b = .lt ↔ a = .lt ∨ (a = .eq ∧ b = .lt) := by
  cases a <;> simp [ordThen]

/-- `cmpo` is transitive on `lt`. -/
def cmpo_trans {α : Type} [LinearOrder α] {a b c : α} (h1 : cmpo a b = .lt)
    (h2 : cmpo b c = .lt) : cmpo a c = .lt :=
  cmpo_lt_iff.mpr (lt_trans (cmpo_lt_iff.mp h1) (cmpo_lt_iff.mp h2))

/-- `lexCmp` is transitive on `lt`. -/
def lexCmp_trans {α : Type} [LinearOrder α] :
    {l m n : List α} → lexCmp l m = .lt → lexCmp m n = .lt → lexCmp l n = .lt
  | [], [], _, h1, _ => by simp [lexCmp] at h1
  | [], _ :: _, [], _, h2 => by simp [lexCmp] at h2
  | [], _ :: _, _ :: _, _, _ => rfl
  | _ :: _, [], _, h1, _ => by simp [lexCmp] at h1
  | _ :: _, _ :: _, [], _, h2 => by simp [lexCmp] at h2
  | a :: r, b :: s, c :: t, h1, h2 => by
      simp only [lexCmp] at h1 h2 ⊢
      rcases ordThen_lt_iff.mp h1 with hh1 | ⟨hh1, hr1⟩ <;>
        rcases ordThen_lt_iff.mp h2 with hh2 | ⟨hh2, hr2⟩
      · exact ordThen_lt_iff.mpr (Or.inl (cmpo_trans hh1 hh2))
      · rw [← cmpo_eq hh2]; exact ordThen_lt_iff.mpr (Or.inl hh1)
      · rw [cmpo_eq hh1]; exact ordThen_lt_iff.mpr (Or.inl hh2)
      · rw [cmpo_eq hh1]
        exact ordThen_lt_iff.mpr (Or.inr ⟨hh2, lexCmp_trans hr1 hr2⟩)

/-- `strCmp` is transitive on `lt`. -/
def strCmp_trans {a b c : String} (h1 : strCmp a b = .lt) (h2 : strCmp b c = .lt) :
    strCmp a c = .lt := lexCmp_trans h1 h2

/-- `durCmp` is transitive on `lt`. -/
def durCmp_trans {a b c : CqlDuration} (h1 : durCmp a b = .lt) (h2 : durCmp b c = .lt) :
    durCmp a c = .lt := by
  simp only [durCmp] at h1 h2 ⊢
  rcases ordThen_lt_iff.mp h1 with hm1 | ⟨hm1, h1r⟩ <;>
    rcases ordThen_lt_iff.mp h2 with hm2 | ⟨hm2, h2r⟩
  · exact ordThen_lt_iff.mpr (Or.inl (cmpo_trans hm1 hm2))
  · rw [← cmpo_eq hm2]; exact ordThen_lt_iff.mpr (Or.inl hm1)
  · rw [cmpo_eq hm1]; exact ordThen_lt_iff.mpr (Or.inl hm2)
  · refine ordThen_lt_iff.mpr (Or.inr ⟨cmpo_eq_iff.mpr ((cmpo_eq hm1).trans (cmpo_eq hm2)), ?_⟩)
    rcases ordThen_lt_iff.mp h1r with hd1 | ⟨hd1, hn1⟩ <;>
      rcases ordThen_lt_iff.mp h2r with hd2 | ⟨hd2, hn2⟩
    · exact ordThen_lt_iff.mpr (Or.inl (cmpo_trans hd1 hd2))
    · rw [← cmpo_eq hd2]; exact ordThen_lt_iff.mpr (Or.inl hd1)
    · rw [cmpo_eq hd1]; exact ordThen_lt_iff.mpr (Or.inl hd2)
    · refine ordThen_lt_iff.mpr (Or.inr ⟨cmpo_eq_iff.mpr ((cmpo_eq hd1).trans (cmpo_eq hd2)), ?_⟩)
      exact cmpo_trans hn1 hn2

/-- `ipCmp` is transitive on `lt`. -/
def ipCmp_trans : (a b c : IpAddrM) → ipCmp a b = .lt → ipCmp b c = .lt → ipCmp a c = .lt
  | .V4 _, .V4 _, .V4 _, h1, h2 => cmpo_trans h1 h2
  | .V4 _, .V4 _, .V6 _, _, _ => rfl
  | .V4 _, .V6 _, .V4 _, _, h2 => by simp [ipCmp] at h2
  | .V4 _, .V6 _, .V6 _, _, _ => rfl
  | .V6 _, .V4 _, _, h1, _ => by simp [ipCmp] at h1
  | .V6 _, .V6 _, .V4 _, _, h2 => by simp [ipCmp] at h2
  | .V6 _, .V6 _, .V6 _, h1, h2 => cmpo_trans h1 h2

mutual

/-- The derived `CqlValue` order is transitive on `lt`. -/
def cqlCmp_transv (a b c : CqlValue) (h1 : cqlCmp a b = .lt) (h2 : cqlCmp b c = .lt) :
    cqlCmp a c = .lt := by
  rw [show cqlCmp a b = ordThen (cmpo (ctorIdx a) (ctorIdx b)) (payCmp a b) from rfl,
    ordThen_lt_iff] at h1
  rw [show cqlCmp b c = ordThen (cmpo (ctorIdx b) (ctorIdx c)) (payCmp b c) from rfl,
    ordThen_lt_iff] at h2
  rw [show cqlCmp a c = ordThen (cmpo (ctorIdx a) (ctorIdx c)) (payCmp a c) from rfl,
    ordThen_lt_iff]
  rcases h1 with h1 | ⟨h1e, h1p⟩
  · rcases h2 with h2 | ⟨h2e, h2p⟩
    · exact Or.inl (cmpo_trans h1 h2)
    · exact Or.inl (by rw [← cmpo_eq h2e]; exact h1)
  · rcases h2 with h2 | ⟨h2e, h2p⟩
    · exact Or.inl (by rw [cmpo_eq h1e]; exact h2)
    · refine Or.inr ⟨cmpo_eq_iff.mpr ((cmpo_eq h1e).trans (cmpo_eq h2e)), ?_⟩
      have hab : ctorIdx a = ctorIdx b := cmpo_eq h1e
      have hbc : ctorIdx b = ctorIdx c := cmpo_eq h2e
      clear h1e h2e
      cases a <;> cases b <;> try (simp only [ctorIdx] at hab; exact absurd hab (by decide))
      all_goals cases c
      all_goals try (simp only [ctorIdx] at hbc; exact absurd hbc (by decide))
      all_goals first
        | (simp only [payCmp] at h1p h2p ⊢; exact cmpo_trans h1p h2p)
        | (simp only [payCmp] at h1p h2p ⊢; exact strCmp_trans h1p h2p)
        | (simp only [payCmp] at h1p h2p ⊢; exact lexCmp_trans h1p h2p)
        | (simp only [payCmp] at h1p h2p ⊢; exact durCmp_trans h1p h2p)
        | (simp only [payCmp] at h1p h2p ⊢; exact ipCmp_trans _ _ _ h1p h2p)
        | (simp only [payCmp] at h1p h2p ⊢; exact cqlCmpList_transv _ _ _ h1p h2p)
        | (simp only [payCmp] at h1p h2p ⊢; exact cqlCmpPairs_transv _ _ _ h1p h2p)
        | (simp only [payCmp] at h1p; exact absurd h1p (by decide))
        | (simp only [payCmp] at h1p h2p ⊢
           rcases ordThen_lt_iff.mp h1p with hk1 | ⟨hk1, h1r⟩ <;>
             rcases ordThen_lt_iff.mp h2p with hk2 | ⟨hk2, h2r⟩
           · exact ordThen_lt_iff.mpr (Or.inl (strCmp_trans hk1 hk2))
           · rw [← strCmp_eq hk2]; exact ordThen_lt_iff.mpr (Or.inl hk1)
           · rw [strCmp_eq hk1]; exact ordThen_lt_iff.mpr (Or.inl hk2)
           · refine ordThen_lt_iff.mpr
               (Or.inr ⟨by rw [strCmp_eq hk1, ← strCmp_eq hk2]; exact strCmp_refl _, ?_⟩)
             rcases ordThen_lt_iff.mp h1r with ht1 | ⟨ht1, hf1⟩ <;>
               rcases ordThen_lt_iff.mp h2r with ht2 | ⟨ht2, hf2⟩
             · exact ordThen_lt_iff.mpr (Or.inl (strCmp_trans ht1 ht2))
             · rw [← strCmp_eq ht2]; exact ordThen_lt_iff.mpr (Or.inl ht1)
             · rw [strCmp_eq ht1]; exact ordThen_lt_iff.mpr (Or.inl ht2)
             · refine ordThen_lt_iff.mpr
                 (Or.inr ⟨by rw [strCmp_eq ht1, ← strCmp_eq ht2]; exact strCmp_refl _, ?_⟩)
               exact cqlCmpFields_transv _ _ _ hf1 hf2)
termination_by sizeOf a

/-- `cqlCmpList` is transitive on `lt`. -/
def cqlCmpList_transv : (l m n : List CqlValue) → cqlCmpList l m = .lt →
    cqlCmpList m n = .lt → cqlCmpList l n = .lt
  | [], [], _, h1, _ => by simp [cqlCmpList] at h1
  | [], _ :: _, [], _, h2 => by simp [cqlCmpList] at h2
  | [], _ :: _, _ :: _, _, _ => rfl
  | _ :: _, [], _, h1, _ => by simp [cqlCmpList] at h1
  | _ :: _, _ :: _, [], _, h2 => by simp [cqlCmpList] at h2
  | a :: r, b :: s, c :: t, h1, h2 => by
      rw [cqlCmpList_cons] at h1 h2 ⊢
      rcases ordThen_lt_iff.mp h1 with hh1 | ⟨hh1, hr1⟩ <;>
        rcases ordThen_lt_iff.mp h2 with hh2 | ⟨hh2, hr2⟩
      · exact ordThen_lt_iff.mpr (Or.inl (cqlCmp_transv a b c hh1 hh2))
      · rw [← cqlCmp_eqv b c hh2]; exact ordThen_lt_iff.mpr (Or.inl hh1)
      · rw [cqlCmp_eqv a b hh1]; exact ordThen_lt_iff.mpr (Or.inl hh2)
      · rw [cqlCmp_eqv a b hh1]
        exact ordThen_lt_iff.mpr (Or.inr ⟨hh2, cqlCmpList_transv r s t hr1 hr2⟩)
termination_by l => sizeOf l

/-- `cqlCmpPairs` is transitive on `lt`. -/
def cqlCmpPairs_transv : (l m n : List (CqlValue × CqlValue)) → cqlCmpPairs l m = .lt →
    cqlCmpPairs m n = .lt → cqlCmpPairs l n = .lt
  | [], [], _, h1, _ => by simp [cqlCmpPairs] at h1
  | [], _ :: _, [], _, h2 => by simp [cqlCmpPairs] at h2
  | [], _ :: _, _ :: _, _, _ => rfl
  | _ :: _, [], _, h1, _ => by simp [cqlCmpPairs] at h1
  | _ :: _, _ :: _, [], _, h2 => by simp [cqlCmpPairs] at h2
  | (a1, a2) :: r, (b1, b2) :: s, (c1, c2) :: t, h1, h2 => by
      rw [cqlCmpPairs_cons] at h1 h2 ⊢
      rcases ordThen_lt_iff.mp h1 with hh1 | ⟨hh1, h1r⟩ <;>
        rcases ordThen_lt_iff.mp h2 with hh2 | ⟨hh2, h2r⟩
      · exact ordThen_lt_iff.mpr (Or.inl (cqlCmp_transv a1 b1 c1 hh1 hh2))
      · rw [← cqlCmp_eqv b1 c1 hh2]; exact ordThen_lt_iff.mpr (Or.inl hh1)
      · rw [cqlCmp_eqv a1 b1 hh1]; exact ordThen_lt_iff.mpr (Or.inl hh2)
      · rw [cqlCmp_eqv a1 b1 hh1]
        refine ordThen_lt_iff.mpr (Or.inr ⟨hh2, ?_⟩)
        rcases ordThen_lt_iff.mp h1r with hv1 | ⟨hv1, hr1⟩ <;>
          rcases ordThen_lt_iff.mp h2r with hv2 | ⟨hv2, hr2⟩
        · exact ordThen_lt_iff.mpr (Or.inl (cqlCmp_transv a2 b2 c2 hv1 hv2))
        · rw [← cqlCmp_eqv b2 c2 hv2]; exact ordThen_lt_iff.mpr (Or.inl hv1)
        · rw [cqlCmp_eqv a2 b2 hv1]; exact ordThen_lt_iff.mpr (Or.inl hv2)
        · rw [cqlCmp_eqv a2 b2 hv1]
          exact ordThen_lt_iff.mpr (Or.inr ⟨hv2, cqlCmpPairs_transv r s t hr1 hr2⟩)
termination_by l => sizeOf l

/-- `cqlCmpOpt` is transitive on `lt`. -/
def cqlCmpOpt_transv : (o p q : Option CqlValue) → cqlCmpOpt o p = .lt →
    cqlCmpOpt p q = .lt → cqlCmpOpt o q = .lt
  | none, none, _, h1, _ => by simp [cqlCmpOpt] at h1
  | none, some _, none, _, h2 => by simp [cqlCmpOpt] at h2
  | none, some _, some _, _, _ => rfl
  | some _, none, _, h1, _ => by simp [cqlCmpOpt] at h1
  | some _, some _, none, _, h2 => by simp [cqlCmpOpt] at h2
  | some a, some b, some c, h1, h2 => by
      rw [cqlCmpOpt_some] at h1 h2 ⊢
      exact cqlCmp_transv a b c h1 h2
termination_by o => sizeOf o

/-- `cqlCmpFields` is transitive on `lt`. -/
def cqlCmpFields_transv : (l m n : List (String × Option CqlValue)) → cqlCmpFields l m = .lt →
    cqlCmpFields m n = .lt → cqlCmpFields l n = .lt
  | [], [], _, h1, _ => by simp [cqlCmpFields] at h1
  | [], _ :: _, [], _, h2 => by simp [cqlCmpFields] at h2
  | [], _ :: _, _ :: _, _, _ => rfl
  | _ :: _, [], _, h1, _ => by simp [cqlCmpFields] at h1
  | _ :: _, _ :: _, [], _, h2 => by simp [cqlCmpFields] at h2
  | (a1, a2) :: r, (b1, b2) :: s, (c1, c2) :: t, h1, h2 => by
      simp only [cqlCmpFields] at h1 h2 ⊢
      rcases ordThen_lt_iff.mp h1 with hh1 | ⟨hh1, h1r⟩ <;>
        rcases ordThen_lt_iff.mp h2 with hh2 | ⟨hh2, h2r⟩
      · exact ordThen_lt_iff.mpr (Or.inl (strCmp_trans hh1 hh2))
      · rw [← strCmp_eq hh2]; exact ordThen_lt_iff.mpr (Or.inl hh1)
      · rw [strCmp_eq hh1]; exact ordThen_lt_iff.mpr (Or.inl hh2)
      · rw [strCmp_eq hh1]
        refine ordThen_lt_iff.mpr (Or.inr ⟨by rw [← strCmp_eq hh2]; exact strCmp_refl _, ?_⟩)
        rcases ordThen_lt_iff.mp h1r with hv1 | ⟨hv1, hr1⟩ <;>
          rcases ordThen_lt_iff.mp h2r with hv2 | ⟨hv2, hr2⟩
        · exact ordThen_lt_iff.mpr (Or.inl (cqlCmpOpt_transv a2 b2 c2 hv1 hv2))
        · rw [← cqlCmpOpt_eqv b2 c2 hv2]; exact ordThen_lt_iff.mpr (Or.inl hv1)
        · rw [cqlCmpOpt_eqv a2 b2 hv1]; exact ordThen_lt_iff.mpr (Or.inl hv2)
        · rw [cqlCmpOpt_eqv a2 b2 hv1]
          exact ordThen_lt_iff.mpr (Or.inr ⟨hv2, cqlCmpFields_transv r s t hr1 hr2⟩)
termination_by l => sizeOf l

end

/-- No clustering slot compares above a `Some Empty` slot. -/
def cqlCmpOpt_le_empty (o : Option CqlValue) : cqlCmpOpt o (some .Empty) ≠ .gt := by
  cases o with
  | none => simp [cqlCmpOpt]
  | some v => rw [cqlCmpOpt_some]; exact cqlCmp_le_empty v

/-- `ckOptListCmp` is reflexive. -/
def ckOptListCmp_refl : (l : List (Option CqlValue)) → ckOptListCmp l l = .eq
  | [] => rfl
  | a :: r => by
      simp only [ckOptListCmp]
      rw [cqlCmpOpt_refl a, ckOptListCmp_refl r]
      rfl

/-- `ckOptListCmp` answers `eq` only on equal lists. -/
def ckOptListCmp_eqv : (l m : List (Option CqlValue)) → ckOptListCmp l m = .eq → l = m
  | [], [], _ => rfl
  | [], _ :: _, h => by simp [ckOptListCmp] at h
  | _ :: _, [], h => by simp [ckOptListCmp] at h
  | a :: r, b :: s, h => by
      simp only [ckOptListCmp, ordThen_eq] at h
      rw [cqlCmpOpt_eqv a b h.1, ckOptListCmp_eqv r s h.2]

/-- Swapping the arguments of `ckOptListCmp` flips the result. -/
def ckOptListCmp_swap : (l m : List (Option CqlValue)) →
    (ckOptListCmp l m).swap = ckOptListCmp m l
  | [], [] => rfl
  | [], _ :: _ => rfl
  | _ :: _, [] => rfl
  | a :: r, b :: s => by
      simp only [ckOptListCmp]
      rw [ordThen_swap, cqlCmpOpt_swapv a b, ckOptListCmp_swap r s]

/-- `ckOptListCmp` is transitive on `lt`. -/
def ckOptListCmp_trans : (l m n : List (Option CqlValue)) → ckOptListCmp l m = .lt →
    ckOptListCmp m n = .lt → ckOptListCmp l n = .lt
  | [], [], _, h1, _ => by simp [ckOptListCmp] at h1
  | [], _ :: _, [], _, h2 => by simp [ckOptListCmp] at h2
  | [], _ :: _, _ :: _, _, _ => rfl
  | _ :: _, [], _, h1, _ => by simp [ckOptListCmp] at h1
  | _ :: _, _ :: _, [], _, h2 => by simp [ckOptListCmp] at h2
  | a :: r, b :: s, c :: t, h1, h2 => by
      simp only [ckOptListCmp] at h1 h2 ⊢
      rcases ordThen_lt_iff.mp h1 with hh1 | ⟨hh1, hr1⟩ <;>
        rcases ordThen_lt_iff.mp h2 with hh2 | ⟨hh2, hr2⟩
      · exact ordThen_lt_iff.mpr (Or.inl (cqlCmpOpt_transv a b c hh1 hh2))
      · rw [← cqlCmpOpt_eqv b c hh2]; exact ordThen_lt_iff.mpr (Or.inl hh1)
      · rw [cqlCmpOpt_eqv a b hh1]; exact ordThen_lt_iff.mpr (Or.inl hh2)
      · rw [cqlCmpOpt_eqv a b hh1]
        exact ordThen_lt_iff.mpr (Or.inr ⟨hh2, ckOptListCmp_trans r s t hr1 hr2⟩)

/-- `ckCmp` is reflexive. -/
def ckCmp_refl (k : ClusteringKeyValue) : ckCmp k k = .eq := by
  cases k with
  | Simple v => exact cqlCmpOpt_refl v
  | Composite vs => exact ckOptListCmp_refl vs
  | Empty => rfl

/-- `ckCmp` answers `eq` only on equal keys. -/
def ckCmp_eqv (a b : ClusteringKeyValue) (h : ckCmp a b = .eq) : a = b := by
  cases a <;> cases b <;> first
    | rfl
    | exact absurd h Ordering.noConfusion
    | exact congrArg _ (cqlCmpOpt_eqv _ _ h)
    | exact congrArg _ (ckOptListCmp_eqv _ _ h)

/-- Swapping the arguments of `ckCmp` flips the result. -/
def ckCmp_swap (a b : ClusteringKeyValue) : (ckCmp a b).swap = ckCmp b a := by
  cases a <;> cases b <;> first
    | rfl
    | exact cqlCmpOpt_swapv _ _
    | exact ckOptListCmp_swap _ _

/-- `ckCmp` is transitive on `lt`. -/
def ckCmp_trans (a b c : ClusteringKeyValue) (h1 : ckCmp a b = .lt) (h2 : ckCmp b c = .lt) :
    ckCmp a c = .lt := by
  cases a <;> cases b <;> cases c <;> first
    | rfl
    | exact absurd h1 Ordering.noConfusion
    | exact absurd h2 Ordering.noConfusion
    | exact cqlCmpOpt_transv _ _ _ h1 h2
    | exact ckOptListCmp_trans _ _ _ h1 h2

/-- `pkCmp` is reflexive. -/
def pkCmp_refl (k : PartitionKeyValue) : pkCmp k k = .eq := by
  cases k with
  | Simple v => exact cqlCmp_refl v
  | Composite vs => exact cqlCmpList_refl vs
  | Empty => rfl

/-- `pkCmp` answers `eq` only on equal keys. -/
def pkCmp_eqv (a b : PartitionKeyValue) (h : pkCmp a b = .eq) : a = b := by
  cases a <;> cases b <;> first
    | rfl
    | exact absurd h Ordering.noConfusion
    | exact congrArg _ (cqlCmp_eqv _ _ h)
    | exact congrArg _ (cqlCmpList_eqv _ _ h)

/-- Swapping the arguments of `pkCmp` flips the result. -/
def pkCmp_swap (a b : PartitionKeyValue) : (pkCmp a b).swap = pkCmp b a := by
  cases a <;> cases b <;> first
    | rfl
    | exact cqlCmp_swapv _ _
    | exact cqlCmpList_swapv _ _

/-- `pkCmp` is transitive on `lt`. -/
def pkCmp_trans (a b c : PartitionKeyValue) (h1 : pkCmp a b = .lt) (h2 : pkCmp b c = .lt) :
    pkCmp a c = .lt := by
  cases a <;> cases b <;> cases c <;> first
    | rfl
    | exact absurd h1 Ordering.noConfusion
    | exact absurd h2 Ordering.noConfusion
    | exact cqlCmp_transv _ _ _ h1 h2
    | exact cqlCmpList_transv _ _ _ h1 h2

/-- The laws of a comparator that models a Rust `Ord` implementation. -/
structure CmpLaws {κ : Type} (cmp : κ → κ → Ordering) : Prop where
  refl : ∀ a, cmp a a = .eq
  eqv : ∀ a b, cmp a b = .eq → a = b
  swap : ∀ a b, (cmp a b).swap = cmp b a
  trans : ∀ a b c, cmp a b = .lt → cmp b c = .lt → cmp a c = .lt

/-- `strCmp` satisfies the comparator laws. -/
def strCmp_laws : CmpLaws strCmp :=
  ⟨strCmp_refl, fun _ _ h => strCmp_eq h, strCmp_swap, fun _ _ _ h1 h2 => strCmp_trans h1 h2⟩

/-- `ckCmp` satisfies the comparator laws. -/
def ckCmp_laws : CmpLaws ckCmp := ⟨ckCmp_refl, ckCmp_eqv, ckCmp_swap, ckCmp_trans⟩

/-- `pkCmp` satisfies the comparator laws. -/
def pkCmp_laws : CmpLaws pkCmp := ⟨pkCmp_refl, pkCmp_eqv, pkCmp_swap, pkCmp_trans⟩

/-- An ordering swaps to `lt` exactly when it is `gt`. -/
def swap_lt {o : Ordering} : o.swap = .lt ↔ o = .gt := by
  cases o <;> simp [Ordering.swap]

/-- An ordering swaps to `gt` exactly when it is `lt`. -/
def swap_gt {o : Ordering} : o.swap = .gt ↔ o = .lt := by
  cases o <;> simp [Ordering.swap]

/-- A comparator answering `gt` answers `lt` with the arguments flipped. -/
def CmpLaws.lt_of_gt {κ : Type} {cmp : κ → κ → Ordering} (L : CmpLaws cmp) {a b : κ}
    (h : cmp a b = .gt) : cmp b a = .lt := by
  rw [← L.swap a b, h]; rfl

/-- A comparator answering `lt` answers `gt` with the arguments flipped. -/
def CmpLaws.gt_of_lt {κ : Type} {cmp : κ → κ → Ordering} (L : CmpLaws cmp) {a b : κ}
    (h : cmp a b = .lt) : cmp b a = .gt := by
  rw [← L.swap a b, h]; rfl

/-- Comparator inequality is symmetric. -/
def CmpLaws.ne_symm {κ : Type} {cmp : κ → κ → Ordering} (L : CmpLaws cmp) {a b : κ}
    (h : cmp a b ≠ .eq) : cmp b a ≠ .eq := by
  intro h2
  rw [L.eqv b a h2] at h
  exact h (L.refl a)

/-- Looking up the key just put finds the new value (`HashMap` model). -/
def alistGet_put_self {β : Type} (k : String) (v : β) : (l : List (String × β)) →
    alistGet k (alistPut k v l) = some v
  | [] => by simp [alistPut, alistGet]
  | (k2, v2) :: rest => by
      by_cases h : k = k2
      · simp [alistPut, h, alistGet]
      · simp [alistPut, h, alistGet, alistGet_put_self k v rest]

/-- Looking up another key after a put sees the old map. -/
def alistGet_put_other {β : Type} {k k2 : String} (hne : k ≠ k2) (v : β) :
    (l : List (String × β)) → alistGet k (alistPut k2 v l) = alistGet k l
  | [] => by simp [alistPut, alistGet, hne]
  | (k3, v3) :: rest => by
      by_cases h : k2 = k3
      · subst h
        simp [alistPut, alistGet, hne]
      · by_cases hk : k = k3
        · subst hk
          simp [alistPut, h, alistGet]
        · simp [alistPut, h, alistGet, hk, alistGet_put_other hne v rest]

/-- Putting the same key twice keeps only the last value. -/
def alistPut_absorb {β : Type} (k : String) (v1 v2 : β) : (l : List (String × β)) →
    alistPut k v2 (alistPut k v1 l) = alistPut k v2 l
  | [] => by simp [alistPut]
  | (k3, v3) :: rest => by
      by_cases h : k = k3
      · simp [alistPut, h]
      · simp [alistPut, h, alistPut_absorb k v1 v2 rest]

/-- Puts at different keys commute when the first key is already present
(the in-place/append behaviour of the `HashMap` model only depends on
presence). -/
def alistPut_comm {β : Type} {k1 k2 : String} (hne : k1 ≠ k2) (v1 v2 : β) :
    (l : List (String × β)) → (alistGet k1 l).isSome →
    alistPut k2 v2 (alistPut k1 v1 l) = alistPut k1 v1 (alistPut k2 v2 l)
  | [], h => by simp [alistGet] at h
  | (k3, v3) :: rest, h => by
      by_cases h1 : k1 = k3
      · subst h1
        simp [alistPut, hne, Ne.symm hne]
      · by_cases h2 : k2 = k3
        · subst h2
          simp [alistPut, h1, hne]
        · simp [alistPut, h1, h2,
            alistPut_comm hne v1 v2 rest (by simpa [alistGet, h1] using h)]

/-- Looking up the id just stored finds it (prepared-cache model). -/
def natGet_put_self {β : Type} (k : Nat) (v : β) : (l : List (Nat × β)) →
    natGet k (natPut k v l) = some v
  | [] => by simp [natPut, natGet]
  | (k2, v2) :: rest => by
      by_cases h : k = k2
      · simp [natPut, h, natGet]
      · simp [natPut, h, natGet, natGet_put_self k v rest]

/-- A `BTreeMap` lookup after an insert-with-constant finds that constant. -/
def sortedGet_update_const {κ β : Type} {cmp : κ → κ → Ordering} (L : CmpLaws cmp) (k : κ)
    (v : β) : (l : List (κ × β)) → sortedGet cmp k (sortedUpdate cmp k (fun _ => v) l) = some v
  | [] => by simp [sortedUpdate, sortedGet, L.refl k]
  | (k2, v2) :: rest => by
      rcases hc : cmp k k2 with _ | _ | _
      · simp [sortedUpdate, hc, sortedGet, L.refl k]
      · simp [sortedUpdate, hc, sortedGet]
      · simp [sortedUpdate, hc, sortedGet, sortedGet_update_const L k v rest]

/-- Repeating a `BTreeMap` update whose function is idempotent-under-refresh
changes nothing the second time. -/
def sortedUpdate_update_self {κ β : Type} {cmp : κ → κ → Ordering} (L : CmpLaws cmp) (k : κ)
    {f : Option β → β} (hf : ∀ x, f (some (f x)) = f x) : (l : List (κ × β)) →
    sortedUpdate cmp k f (sortedUpdate cmp k f l) = sortedUpdate cmp k f l
  | [] => by simp [sortedUpdate, L.refl k, hf none]
  | (k2, v2) :: rest => by
      rcases hc : cmp k k2 with _ | _ | _
      · simp [sortedUpdate, hc, L.refl k, hf none]
      · simp [sortedUpdate, hc, hf (some v2)]
      · simp [sortedUpdate, hc, sortedUpdate_update_self L k hf rest]

/-- Two `BTreeMap` updates at the same key fuse into one. -/
def sortedUpdate_compose {κ β : Type} {cmp : κ → κ → Ordering} (L : CmpLaws cmp) (k : κ)
    (f1 f2 : Option β → β) : (l : List (κ × β)) →
    sortedUpdate cmp k f2 (sortedUpdate cmp k f1 l) =
      sortedUpdate cmp k (fun x => f2 (some (f1 x))) l
  | [] => by simp [sortedUpdate, L.refl k]
  | (k2, v2) :: rest => by
      rcases hc : cmp k k2 with _ | _ | _
      · simp [sortedUpdate, hc, L.refl k]
      · simp [sortedUpdate, hc]
      · simp [sortedUpdate, hc, sortedUpdate_compose L k f1 f2 rest]

/-- `BTreeMap` updates at keys in strict `lt` order commute. -/
def sortedUpdate_comm_lt {κ β : Type} {cmp : κ → κ → Ordering} (L : CmpLaws cmp)
    {k1 k2 : κ} (hlt : cmp k1 k2 = .lt) (f1 f2 : Option β → β) : (l : List (κ × β)) →
    sortedUpdate cmp k1 f1 (sortedUpdate cmp k2 f2 l) =
      sortedUpdate cmp k2 f2 (sortedUpdate cmp k1 f1 l)
  | [] => by simp [sortedUpdate, hlt, L.gt_of_lt hlt]
  | (k0, v0) :: rest => by
      rcases h10 : cmp k1 k0 with _ | _ | _ <;> rcases h20 : cmp k2 k0 with _ | _ | _
      · simp [sortedUpdate, h10, h20, hlt, L.gt_of_lt hlt]
      · simp [sortedUpdate, h10, h20, hlt, L.gt_of_lt hlt]
      · simp [sortedUpdate, h10, h20, hlt, L.gt_of_lt hlt]
      · have e := L.eqv k1 k0 h10
        subst e
        have hbad := L.trans k1 k2 k1 hlt h20
        rw [L.refl k1] at hbad
        exact absurd hbad (by decide)
      · have e1 := L.eqv k1 k0 h10
        subst e1
        have e2 := L.eqv k2 k1 h20
        rw [← e2, L.refl k2] at hlt
        exact absurd hlt (by decide)
      · have e := L.eqv k1 k0 h10
        subst e
        simp [sortedUpdate, h20, L.refl k1]
      · have ha := L.trans k0 k1 k2 (L.lt_of_gt h10) hlt
        have hbad := L.trans k2 k0 k2 h20 ha
        rw [L.refl k2] at hbad
        exact absurd hbad (by decide)
      · have e := L.eqv k2 k0 h20
        subst e
        rw [hlt] at h10
        exact absurd h10 (by decide)
      · simp [sortedUpdate, h10, h20, sortedUpdate_comm_lt L hlt f1 f2 rest]

/-- `BTreeMap` updates at distinct keys commute. -/
def sortedUpdate_comm {κ β : Type} {cmp : κ → κ → Ordering} (L : CmpLaws cmp)
    {k1 k2 : κ} (hne : cmp k1 k2 ≠ .eq) (f1 f2 : Option β → β) (l : List (κ × β)) :
    sortedUpdate cmp k1 f1 (sortedUpdate cmp k2 f2 l) =
      sortedUpdate cmp k2 f2 (sortedUpdate cmp k1 f1 l) := by
  rcases hc : cmp k1 k2 with _ | _ | _
  · exact sortedUpdate_comm_lt L hc f1 f2 l
  · exact absurd hc hne
  · exact (sortedUpdate_comm_lt L (L.lt_of_gt hc) f2 f1 l).symm

/-- A single update at a key foreign to a batch commutes past the batch. -/
def updAll_comm_single {κ β : Type} {cmp : κ → κ → Ordering} (L : CmpLaws cmp) {k : κ}
    (f : Option β → β) : (ps : List (κ × (Option β → β))) →
    (∀ p ∈ ps, cmp k p.1 ≠ .eq) → ∀ l : List (κ × β),
    sortedUpdate cmp k f (updAll cmp ps l) = updAll cmp ps (sortedUpdate cmp k f l)
  | [], _, _ => rfl
  | (k2, f2) :: rest, hne, l => by
      have h1 : cmp k k2 ≠ .eq := hne (k2, f2) (List.mem_cons_self _ _)
      have h2 : ∀ p ∈ rest, cmp k p.1 ≠ .eq := fun p hp => hne p (List.mem_cons_of_mem _ hp)
      show sortedUpdate cmp k f (updAll cmp rest (sortedUpdate cmp k2 f2 l)) =
        updAll cmp rest (sortedUpdate cmp k2 f2 (sortedUpdate cmp k f l))
      rw [updAll_comm_single L f rest h2 (sortedUpdate cmp k2 f2 l),
        sortedUpdate_comm L h1 f f2 l]

/-- A batch of updates at pairwise-distinct keys, each idempotent under
refresh, is idempotent as a whole. -/
def updAll_idem {κ β : Type} {cmp : κ → κ → Ordering} (L : CmpLaws cmp) :
    (ps : List (κ × (Option β → β))) →
    ps.Pairwise (fun p q => cmp p.1 q.1 ≠ .eq) →
    (∀ p ∈ ps, ∀ x, p.2 (some (p.2 x)) = p.2 x) → ∀ l : List (κ × β),
    updAll cmp ps (updAll cmp ps l) = updAll cmp ps l
  | [], _, _, _ => rfl
  | (k, f) :: rest, hnd, hf, l => by
      have hk : ∀ p ∈ rest, cmp k p.1 ≠ .eq :=
        fun p hp => (List.pairwise_cons.mp hnd).1 p hp
      have hrest := (List.pairwise_cons.mp hnd).2
      have hfk : ∀ x, f (some (f x)) = f x := hf (k, f) (List.mem_cons_self _ _)
      have hfr : ∀ p ∈ rest, ∀ x, p.2 (some (p.2 x)) = p.2 x :=
        fun p hp => hf p (List.mem_cons_of_mem _ hp)
      show updAll cmp rest (sortedUpdate cmp k f (updAll cmp rest (sortedUpdate cmp k f l))) =
        updAll cmp rest (sortedUpdate cmp k f l)
      rw [updAll_comm_single L f rest hk (sortedUpdate cmp k f l),
        sortedUpdate_update_self L k hfk l]
      exact updAll_idem L rest hrest hfr (sortedUpdate cmp k f l)

/-- `rowPutAll` is the batch of constant updates at the pair keys. -/
def rowPutAll_as_updAll {α : Type} : (vs : List (String × α)) → (r : List (String × α)) →
    rowPutAll r vs = updAll strCmp (vs.map (fun kv => (kv.1, fun _ => kv.2))) r
  | [], _ => rfl
  | kv :: rest, r => rowPutAll_as_updAll rest (sortedUpdate strCmp kv.1 (fun _ => kv.2) r)

/-- Extending a row twice with the same duplicate-free column list equals
extending it once. -/
def rowPutAll_idem {α : Type} {vs : List (String × α)} (hnd : (vs.map Prod.fst).Nodup)
    (r : List (String × α)) : rowPutAll (rowPutAll r vs) vs = rowPutAll r vs := by
  rw [rowPutAll_as_updAll, rowPutAll_as_updAll]
  apply updAll_idem strCmp_laws
  · exact List.pairwise_map.mpr
      ((List.pairwise_map.mp hnd).imp (fun h heq => h (strCmp_eq heq)))
  · intro p hp x
    obtain ⟨kv, hkv, rfl⟩ := List.mem_map.mp hp
    rfl

/-- `Memory.write` is a `modifyTable` with the nested partition/row update. -/
def Memory.write_eq (m : Memory) (ks tbl : String) (pk : PartitionKeyValue)
    (ck : ClusteringKeyValue) (values : List (String × CqlValue)) :
    Memory.write m ks tbl pk ck values = modifyTable m ks tbl
      (fun table => sortedUpdate pkCmp pk
        (fun part => sortedUpdate ckCmp ck (fun row => rowPutAll (row.getD []) values)
          (part.getD [])) table) := rfl

/-- Two modifications of the same table fuse into one. -/
def modifyTable_compose (m : Memory) (ks tbl : String) (phi1 phi2 : TableData → TableData) :
    modifyTable (modifyTable m ks tbl phi1) ks tbl phi2 =
      modifyTable m ks tbl (fun t => phi2 (phi1 t)) := by
  simp [modifyTable, alistGet_put_self, Option.getD_some, alistPut_absorb]

/-- Modifications of two different tables of a keyspace commute once the
first table is present in the keyspace. -/
def modifyTable_comm (m : Memory) (ks : String) {tbl1 tbl2 : String} (hne : tbl1 ≠ tbl2)
    (phi1 phi2 : TableData → TableData)
    (hp : (alistGet tbl1 ((alistGet ks m.data).getD [])).isSome) :
    modifyTable (modifyTable m ks tbl1 phi1) ks tbl2 phi2 =
      modifyTable (modifyTable m ks tbl2 phi2) ks tbl1 phi1 := by
  simp only [modifyTable, alistGet_put_self, Option.getD_some,
    alistGet_put_other hne, alistGet_put_other (Ne.symm hne), alistPut_absorb]
  rw [alistPut_comm hne _ _ _ hp]

/-- After a write, the written table is present in its keyspace. -/
def write_presence (m : Memory) (ks tbl : String) (pk : PartitionKeyValue)
    (ck : ClusteringKeyValue) (values : List (String × CqlValue)) :
    (alistGet tbl ((alistGet ks (m.write ks tbl pk ck values).data).getD [])).isSome := by
  rw [Memory.write_eq]
  simp [modifyTable, alistGet_put_self, Option.getD_some]

/-- Presence of a table in a keyspace survives modification of a different
table. -/
def modifyTable_presence_other {tbl tbl2 : String} (hne : tbl ≠ tbl2) (m : Memory)
    (ks : String) (phi : TableData → TableData)
    (hp : (alistGet tbl ((alistGet ks m.data).getD [])).isSome) :
    (alistGet tbl ((alistGet ks (modifyTable m ks tbl2 phi).data).getD [])).isSome := by
  simpa [modifyTable, alistGet_put_self, Option.getD_some, alistGet_put_other hne] using hp

/-- A non-empty write sequence into one partition is a single `modifyTable`
with the batched clustering-row updates. -/
def applyWrites_as_modify (ks tbl : String) (pk : PartitionKeyValue) :
    (rows : List (ClusteringKeyValue × List (String × CqlValue))) → rows ≠ [] →
    ∀ m : Memory,
    applyWrites m ks tbl pk rows = modifyTable m ks tbl
      (fun table => sortedUpdate pkCmp pk
        (fun part => updAll ckCmp
          (rows.map (fun r => (r.1, fun row => rowPutAll (row.getD []) r.2)))
          (part.getD [])) table)
  | [], h, _ => absurd rfl h
  | [r], _, m => rfl
  | r :: r2 :: rest2, _, m => by
      have ih := applyWrites_as_modify ks tbl pk (r2 :: rest2) (by simp)
        (m.write ks tbl pk r.1 r.2)
      show applyWrites (m.write ks tbl pk r.1 r.2) ks tbl pk (r2 :: rest2) = _
      rw [ih, Memory.write_eq, modifyTable_compose]
      congr 1
      funext table
      rw [sortedUpdate_compose pkCmp_laws pk]
      congr 1

/-- A write sequence with pairwise-distinct clustering keys and
duplicate-free column lists is idempotent. -/
def applyWrites_idem (ks tbl : String) (pk : PartitionKeyValue)
    (rows : List (ClusteringKeyValue × List (String × CqlValue)))
    (hck : rows.Pairwise (fun a b => ckCmp a.1 b.1 ≠ .eq))
    (hvals : ∀ r ∈ rows, (r.2.map Prod.fst).Nodup) (m : Memory) :
    applyWrites (applyWrites m ks tbl pk rows) ks tbl pk rows =
      applyWrites m ks tbl pk rows := by
  cases hr : rows with
  | nil => rfl
  | cons r rest =>
      subst hr
      rw [applyWrites_as_modify ks tbl pk (r :: rest) (by simp) m,
        applyWrites_as_modify ks tbl pk (r :: rest) (by simp), modifyTable_compose]
      congr 1
      funext table
      rw [sortedUpdate_compose pkCmp_laws pk]
      congr 1
      funext part
      simp only [Option.getD_some]
      apply updAll_idem ckCmp_laws
      · exact List.pairwise_map.mpr (hck.imp (fun h heq => h heq))
      · intro p hp x
        obtain ⟨kv, hkv, rfl⟩ := List.mem_map.mp hp
        simp only [Option.getD_some]
        exact rowPutAll_idem (hvals kv hkv) _

/-- Repeating a write with a duplicate-free column list changes nothing. -/
def Memory.write_write_same (m : Memory) (ks tbl : String) (pk : PartitionKeyValue)
    (ck : ClusteringKeyValue) (values : List (String × CqlValue))
    (hnd : (values.map Prod.fst).Nodup) :
    (m.write ks tbl pk ck values).write ks tbl pk ck values = m.write ks tbl pk ck values :=
  applyWrites_idem ks tbl pk [(ck, values)] (by simp)
    (by intro r hr; rw [List.mem_singleton] at hr; subst hr; exact hnd) m

/-- A plain `HashMap` lookup after a sorted insert-with-constant at the same
key finds that constant. -/
def alistGet_sortedUpdate_const {β : Type} (k : String) (v : β) :
    (l : List (String × β)) → alistGet k (sortedUpdate strCmp k (fun _ => v) l) = some v
  | [] => by simp [sortedUpdate, alistGet]
  | (k2, v2) :: rest => by
      rcases hc : strCmp k k2 with _ | _ | _
      · simp [sortedUpdate, hc, alistGet]
      · have e := strCmp_eq hc
        subst e
        simp [sortedUpdate, hc, alistGet]
      · have hne : k ≠ k2 := by
          intro e
          rw [e, strCmp_refl k2] at hc
          exact absurd hc (by decide)
        simp [sortedUpdate, hc, alistGet, hne, alistGet_sortedUpdate_const k v rest]

/-- The clustering keys emitted for a column list. -/
def columnRowsList_keys (t : TableM) : (cols : List (String × ColumnM)) → ∀ po co : Int,
    (columnRowsList t cols po co).map (fun r => r.1) =
      cols.map (fun c => ClusteringKeyValue.Composite [some (.Text t.name), some (.Text c.1)])
  | [], _, _ => rfl
  | (name, spec) :: rest, po, co => by
      rcases hk : spec.kind <;>
        simp [columnRowsList, hk, columnRowsList_keys t rest, clusteringFromCql]

/-- Every emitted column row uses the eight fixed column names. -/
def columnRowsList_valkeys (t : TableM) : (cols : List (String × ColumnM)) → ∀ po co : Int,
    ∀ r ∈ columnRowsList t cols po co, r.2.map Prod.fst =
      ["keyspace_name", "table_name", "column_name", "clustering_order",
       "column_name_bytes", "kind", "position", "type"]
  | [], _, _, r, hr => absurd hr (by simp [columnRowsList])
  | (name, spec) :: rest, po, co, r, hr => by
      rcases hk : spec.kind <;>
        (simp only [columnRowsList, hk, List.singleton_append] at hr
         rcases List.mem_cons.mp hr with h | h
         · subst h; rfl
         · exact columnRowsList_valkeys t rest _ _ r h)

/-- Distinct column names give pairwise-distinct emitted clustering keys. -/
def columnRowsList_pairwise (t : TableM) {cols : List (String × ColumnM)}
    (hnd : (cols.map Prod.fst).Nodup) (po co : Int) :
    (columnRowsList t cols po co).Pairwise (fun a b => ckCmp a.1 b.1 ≠ .eq) := by
  have h2 : ((columnRowsList t cols po co).map (fun r => r.1)).Pairwise
      (fun x y => ckCmp x y ≠ .eq) := by
    rw [columnRowsList_keys t cols po co]
    refine List.pairwise_map.mpr ((List.pairwise_map.mp hnd).imp ?_)
    intro a b hne heq
    have h3 := ckCmp_eqv _ _ heq
    apply hne
    injection h3 with h4
    simpa using h4
  exact List.pairwise_map.mp h2

/-- `insertColumnsLoop` is the write sequence of its collected rows. -/
def insertColumns_as_applyWrites (t : TableM) :
    (cols : List (String × ColumnM)) → ∀ (po co : Int) (m : Memory),
    insertColumnsLoop m t cols po co =
      applyWrites m "system_schema" "columns" (partitionFromCql (.Text t.keyspace))
        (columnRowsList t cols po co)
  | [], _, _, _ => rfl
  | (name, ⟨ty, .Regular⟩) :: rest, po, co, m => by
      show insertColumnsLoop (insertColumnRow m t name ⟨ty, .Regular⟩ (-1)) t rest po co = _
      rw [insertColumns_as_applyWrites t rest po co]
      rfl
  | (name, ⟨ty, .Static⟩) :: rest, po, co, m => by
      show insertColumnsLoop (insertColumnRow m t name ⟨ty, .Static⟩ (-1)) t rest po co = _
      rw [insertColumns_as_applyWrites t rest po co]
      rfl
  | (name, ⟨ty, .Clustering⟩) :: rest, po, co, m => by
      show insertColumnsLoop (insertColumnRow m t name ⟨ty, .Clustering⟩ (co + 1)) t rest
        po (co + 1) = _
      rw [insertColumns_as_applyWrites t rest po (co + 1)]
      rfl
  | (name, ⟨ty, .PartitionKey⟩) :: rest, po, co, m => by
      show insertColumnsLoop (insertColumnRow m t name ⟨ty, .PartitionKey⟩ (po + 1)) t rest
        (po + 1) co = _
      rw [insertColumns_as_applyWrites t rest (po + 1) co]
      rfl

/-- Interleaved modifications of two tables, each individually idempotent,
are idempotent as a sequence. -/
def modify_seq_idem (m : Memory) (ks : String) {tbl1 tbl2 : String} (hne : tbl1 ≠ tbl2)
    (phi1 phi2 : TableData → TableData)
    (h1 : ∀ x, modifyTable (modifyTable x ks tbl1 phi1) ks tbl1 phi1 =
      modifyTable x ks tbl1 phi1)
    (h2 : ∀ x, modifyTable (modifyTable x ks tbl2 phi2) ks tbl2 phi2 =
      modifyTable x ks tbl2 phi2)
    (hp : ∀ x, (alistGet tbl1 ((alistGet ks (modifyTable x ks tbl1 phi1).data).getD
      [])).isSome) :
    modifyTable (modifyTable (modifyTable (modifyTable m ks tbl1 phi1) ks tbl2 phi2)
        ks tbl1 phi1) ks tbl2 phi2 =
      modifyTable (modifyTable m ks tbl1 phi1) ks tbl2 phi2 := by
  rw [← modifyTable_comm (modifyTable m ks tbl1 phi1) ks hne phi1 phi2 (hp m), h1 m]
  exact h2 (modifyTable m ks tbl1 phi1)

/-- The `system_schema.keyspaces` row write is idempotent. -/
def insertKeyspaceRow_idem (m : Memory) (ks : KeyspaceM) :
    insertKeyspaceRow (insertKeyspaceRow m ks) ks = insertKeyspaceRow m ks :=
  Memory.write_write_same m "system_schema" "keyspaces"
    (partitionFromCql (.Text ks.name)) (clusteringFromCql .Empty)
    [("keyspace_name", .Text ks.name),
     ("durable_writes", .Boolean true),
     ("replication", .Map [(.Text "class", .Text (strategyStr ks.strategy)),
       (.Text "replication_factor", .Text "1")])]
    (by show (["keyspace_name", "durable_writes", "replication"] : List String).Nodup
        decide)

/-- Re-running the table-row and column-row writes of a table changes
nothing. -/
def insertTableSeq_idem (t : TableM) (hnd : (t.schema.columns.map Prod.fst).Nodup)
    (m : Memory) :
    insertColumnsRows (insertTableRow (insertColumnsRows (insertTableRow m t) t) t) t =
      insertColumnsRows (insertTableRow m t) t := by
  have htw : ∀ x : Memory, insertTableRow x t = modifyTable x "system_schema" "tables"
      (fun table => sortedUpdate pkCmp (partitionFromCql (.Text t.keyspace))
        (fun part => sortedUpdate ckCmp (clusteringFromCql (.Text t.name))
          (fun row => rowPutAll (row.getD [])
            [("keyspace_name", .Text t.keyspace),
             ("table_name", .Text t.name),
             ("allow_auto_snapshot", .Boolean false),
             ("incremental_backups", .Boolean false),
             ("cdc", .Boolean false)])
          (part.getD [])) table) := fun _ => rfl
  have hndt : ∀ x : Memory, insertTableRow (insertTableRow x t) t = insertTableRow x t := by
    intro x
    exact Memory.write_write_same x "system_schema" "tables"
      (partitionFromCql (.Text t.keyspace)) (clusteringFromCql (.Text t.name))
      [("keyspace_name", .Text t.keyspace),
       ("table_name", .Text t.name),
       ("allow_auto_snapshot", .Boolean false),
       ("incremental_backups", .Boolean false),
       ("cdc", .Boolean false)]
      (by show (["keyspace_name", "table_name", "allow_auto_snapshot",
            "incremental_backups", "cdc"] : List String).Nodup
          decide)
  by_cases hcase : columnRowsList t t.schema.columns (-1) (-1) = []
  · simp only [insertColumnsRows, insertColumns_as_applyWrites, hcase]
    simp only [applyWrites, List.foldl_nil]
    exact hndt m
  · have hq := applyWrites_as_modify "system_schema" "columns"
      (partitionFromCql (.Text t.keyspace)) (columnRowsList t t.schema.columns (-1) (-1)) hcase
    simp only [insertColumnsRows, insertColumns_as_applyWrites, hq, htw]
    apply modify_seq_idem m "system_schema" (by decide)
    · intro x
      rw [← htw x, ← htw (insertTableRow x t)]
      exact hndt x
    · intro x
      rw [← hq x, ← hq (applyWrites x "system_schema" "columns"
        (partitionFromCql (.Text t.keyspace)) (columnRowsList t t.schema.columns (-1) (-1)))]
      exact applyWrites_idem _ _ _ _ (columnRowsList_pairwise t hnd (-1) (-1))
        (fun r hr => by
          rw [columnRowsList_valkeys t t.schema.columns (-1) (-1) r hr]
          decide) x
    · intro x
      simp [modifyTable, alistGet_put_self]

/-- `PersistedSchema::create_keyspace` with `IF NOT EXISTS` is idempotent:
the second call returns the same catalog, storage and keyspace. -/
def persistedCreateKeyspace_idem (schema : SchemaM) (m : Memory) (name : String)
    (strat : StrategyM) {schema2 : SchemaM} {m2 : Memory} {ks : KeyspaceM}
    (h : persistedCreateKeyspace schema m name true strat = .ok (schema2, m2, ks)) :
    persistedCreateKeyspace schema2 m2 name true strat = .ok (schema2, m2, ks) := by
  rcases hg : alistGet name schema with _ | ks0
  · simp only [persistedCreateKeyspace, schemaCreateKeyspace, hg, if_pos,
      Except.bind, bind] at h
    simp only [Except.ok.injEq, Prod.mk.injEq] at h
    obtain ⟨h1, h2, h3⟩ := h
    subst h1 h2 h3
    simp only [persistedCreateKeyspace, schemaCreateKeyspace,
      alistGet_sortedUpdate_const, Except.bind, bind, if_true]
    rw [insertKeyspaceRow_idem]
  · simp only [persistedCreateKeyspace, schemaCreateKeyspace, hg,
      Except.bind, bind, if_true] at h
    simp only [Except.ok.injEq, Prod.mk.injEq] at h
    obtain ⟨h1, h2, h3⟩ := h
    subst h1 h2 h3
    simp only [persistedCreateKeyspace, schemaCreateKeyspace, hg,
      Except.bind, bind, if_true]
    rw [insertKeyspaceRow_idem]

/-- `PersistedSchema::create_table` with `IF NOT EXISTS` is idempotent. -/
def persistedCreateTable_idem (schema : SchemaM) (m : Memory) (ksn tbl : String)
    (ts : TableSchemaM) {schema2 : SchemaM} {m2 : Memory} {t : TableM}
    (h : persistedCreateTable schema m ksn tbl true ts = .ok (schema2, m2, t))
    (hnd : (t.schema.columns.map Prod.fst).Nodup) :
    persistedCreateTable schema2 m2 ksn tbl true ts = .ok (schema2, m2, t) := by
  rcases hg : alistGet ksn schema with _ | ks0
  · simp [persistedCreateTable, schemaCreateTable, hg, Except.bind, bind] at h
  · rcases ht : alistGet tbl ks0.tables with _ | t0
    · simp only [persistedCreateTable, schemaCreateTable, hg, ht,
        Except.bind, bind] at h
      simp only [Except.ok.injEq, Prod.mk.injEq] at h
      obtain ⟨h1, h2, h3⟩ := h
      subst h1 h2 h3
      simp only [persistedCreateTable, schemaCreateTable,
        alistGet_sortedUpdate_const, alistGet_put_self, Except.bind, bind, if_true]
      rw [insertTableSeq_idem _ hnd]
    · simp only [persistedCreateTable, schemaCreateTable, hg, ht,
        Except.bind, bind, if_true] at h
      simp only [Except.ok.injEq, Prod.mk.injEq] at h
      obtain ⟨h1, h2, h3⟩ := h
      subst h1 h2 h3
      simp only [persistedCreateTable, schemaCreateTable, hg, ht,
        Except.bind, bind, if_true]
      rw [insertTableSeq_idem _ hnd]

/-- `notGt` holds exactly on non-`gt` answers. -/
def notGt_iff {o : Ordering} : notGt o = true ↔ o ≠ .gt := by
  cases o <;> simp [notGt]

/-- The collection loop of `SelectNode::execute` takes the first `n` rows
and marks the next one. -/
def selectLoop_spec : (l : List (ClusteringKeyValue × RowValues)) → (n : Nat) →
    selectLoop l n = (l.take n, l[n]?)
  | [], n => by simp [selectLoop]
  | e :: rest, 0 => by simp [selectLoop]
  | e :: rest, n + 1 => by simp [selectLoop, selectLoop_spec rest n]

/-- A sorted lookup misses when no key matches. -/
def sortedGet_none {κ β : Type} (cmp : κ → κ → Ordering) (k : κ) :
    (l : List (κ × β)) → (∀ e ∈ l, cmp k e.1 ≠ .eq) → sortedGet cmp k l = none
  | [], _ => rfl
  | (k0, v0) :: rest, h => by
      have h0 := h (k0, v0) (List.mem_cons_self _ _)
      have hr := fun e he => h e (List.mem_cons_of_mem _ he)
      rcases hc : cmp k k0 with _ | _ | _
      · simp [sortedGet, hc, sortedGet_none cmp k rest hr]
      · exact absurd hc h0
      · simp [sortedGet, hc, sortedGet_none cmp k rest hr]

/-- On a sorted map, `BTreeMap::remove` drops exactly the entries whose key
compares equal (of which there is at most one). -/
def sortedRemove_eq_filter {κ β : Type} {cmp : κ → κ → Ordering} (L : CmpLaws cmp) (k : κ) :
    (l : List (κ × β)) → l.Pairwise (fun a b => cmp a.1 b.1 = .lt) →
    sortedRemove cmp k l = l.filter (fun e => decide (cmp k e.1 ≠ .eq))
  | [], _ => rfl
  | (k0, v0) :: rest, hs => by
      have h0 : ∀ b ∈ rest, cmp k0 b.1 = .lt := fun b hb => (List.pairwise_cons.mp hs).1 b hb
      have hrest := (List.pairwise_cons.mp hs).2
      rcases hc : cmp k k0 with _ | _ | _
      · have hall : ∀ e ∈ (k0, v0) :: rest, decide (cmp k e.1 ≠ .eq) = true := by
          intro e he
          rcases List.mem_cons.mp he with h | h
          · subst h; simp [hc]
          · simp [L.trans k k0 e.1 hc (h0 e h)]
        rw [List.filter_eq_self.mpr hall]
        simp [sortedRemove, hc]
      · have e := L.eqv k k0 hc
        subst e
        have hh : (decide (cmp k k ≠ .eq)) = false := by simp [L.refl k]
        rw [List.filter_cons]
        simp only [hh, Bool.false_eq_true, if_false]
        rw [List.filter_eq_self.mpr (fun e he => by simp [h0 e he])]
        simp [sortedRemove, hc]
      · have hh : (decide (cmp k k0 ≠ .eq)) = true := by simp [hc]
        rw [List.filter_cons]
        simp only [hh, if_true]
        simp [sortedRemove, hc, sortedRemove_eq_filter L k rest hrest]

/-- After removing a key from a sorted map, looking it up misses. -/
def sortedGet_remove_self {κ β : Type} {cmp : κ → κ → Ordering} (L : CmpLaws cmp) (k : κ)
    (l : List (κ × β)) (hs : l.Pairwise (fun a b => cmp a.1 b.1 = .lt)) :
    sortedGet cmp k (sortedRemove cmp k l) = none := by
  rw [sortedRemove_eq_filter L k l hs]
  apply sortedGet_none
  intro e he
  have h2 := (List.mem_filter.mp he).2
  simpa using h2

/-- In a sorted partition at most one entry carries a given clustering key. -/
def filter_ck_eq_len {β : Type} (c : ClusteringKeyValue) :
    (l : List (ClusteringKeyValue × β)) → l.Pairwise (fun a b => ckCmp a.1 b.1 = .lt) →
    (l.filter (fun e => decide (e.1 = c))).length ≤ 1
  | [], _ => by simp
  | (k0, v0) :: rest, hs => by
      have h0 : ∀ b ∈ rest, ckCmp k0 b.1 = .lt := fun b hb => (List.pairwise_cons.mp hs).1 b hb
      have hrest := (List.pairwise_cons.mp hs).2
      by_cases hc : k0 = c
      · subst hc
        have hnone : rest.filter (fun e => decide (e.1 = k0)) = [] := by
          rw [List.filter_eq_nil_iff]
          intro b hb
          simp only [decide_eq_true_eq]
          intro hbc
          have h1 := h0 b hb
          rw [hbc, ckCmp_refl k0] at h1
          exact absurd h1 (by decide)
        simp [List.filter_cons, hnone]
      · simp only [List.filter_cons, decide_eq_true_eq, hc, if_false]
        exact filter_ck_eq_len c rest hrest

/-- Prepending a column absent from the remaining names does not change the
clustering-value collection. -/
def collect_cons_irrelevant (n : String) (x : Option CqlValue)
    (raw : List (String × Option CqlValue)) : (names : List String) → n ∉ names →
    collectClusteringValues ((n, x) :: raw) names = collectClusteringValues raw names
  | [], _ => rfl
  | key :: rest, hn => by
      have h1 : ¬(key = n) := fun e => hn (by rw [← e]; exact List.mem_cons_self _ _)
      have h2 : n ∉ rest := fun h => hn (List.mem_cons_of_mem _ h)
      simp only [collectClusteringValues, alistGet, if_neg h1,
        collect_cons_irrelevant n x raw rest h2]

/-- Collecting over the zip of a duplicate-free name prefix with present
values yields exactly those values. -/
def collect_zip : (vals : List CqlValue) → (names : List String) → names.Nodup →
    vals.length ≤ names.length →
    collectClusteringValues ((names.take vals.length).zip (vals.map some)) names =
      .ok (vals.map some)
  | [], [], _, _ => rfl
  | [], n :: rest, _, _ => by simp [collectClusteringValues, alistGet]
  | v :: vrest, [], _, hlen => by simp at hlen
  | v :: vrest, n :: nrest, hnd, hlen => by
      have hn : n ∉ nrest := (List.nodup_cons.mp hnd).1
      have hnd2 := (List.nodup_cons.mp hnd).2
      have hlen2 : vrest.length ≤ nrest.length := by simpa using hlen
      show collectClusteringValues
        ((n, some v) :: (nrest.take vrest.length).zip (vrest.map some)) (n :: nrest) =
        .ok (some v :: vrest.map some)
      simp only [collectClusteringValues, alistGet, if_pos rfl,
        collect_cons_irrelevant n (some v) _ nrest hn,
        collect_zip vrest nrest hnd2 hlen2]
      rfl

/-- A slot list never compares above the all-`Empty` upper pad of its own
length. -/
def ckOptListCmp_le_replicate : (ks : List (Option CqlValue)) → (pad : Nat) →
    ks.length = pad → ckOptListCmp ks (List.replicate pad (some .Empty)) ≠ .gt
  | [], pad, h => by
      rw [← h]
      simp [ckOptListCmp]
  | k :: krest, pad, h => by
      rw [← h]
      simp only [List.length_cons, List.replicate_succ, ckOptListCmp]
      intro hg
      rcases hx : cqlCmpOpt k (some .Empty) with _ | _ | _
      · rw [hx] at hg
        simp [ordThen] at hg
      · rw [hx] at hg
        simp only [ordThen] at hg
        exact ckOptListCmp_le_replicate krest krest.length rfl hg
      · exact cqlCmpOpt_le_empty k hx

/-- Containment between the prefix lower bound and the `Empty`-padded upper
bound holds exactly on keys extending the prefix. -/
def ckRange_prefix_iff : (vs : List (Option CqlValue)) → (pad : Nat) →
    (ks : List (Option CqlValue)) → ks.length = vs.length + pad →
    ((notGt (ckOptListCmp vs ks) &&
      notGt (ckOptListCmp ks (vs ++ List.replicate pad (some .Empty)))) = true ↔
      ks.take vs.length = vs)
  | [], pad, ks, hlen => by
      constructor
      · intro _
        simp
      · intro _
        have h1 : notGt (ckOptListCmp [] ks) = true := by
          cases ks <;> simp [ckOptListCmp, notGt]
        have h2 : notGt (ckOptListCmp ks (List.replicate pad (some .Empty))) = true := by
          rw [notGt_iff]
          exact ckOptListCmp_le_replicate ks pad (by simpa using hlen)
        simp [h1, h2]
  | v :: vrest, pad, ks, hlen => by
      cases ks with
      | nil =>
          simp only [List.length_nil, List.length_cons] at hlen
          omega
      | cons k krest =>
          have hlen2 : krest.length = vrest.length + pad := by
            simp only [List.length_cons] at hlen
            omega
          constructor
          · intro h
            rw [Bool.and_eq_true, notGt_iff, notGt_iff] at h
            obtain ⟨ha, hb⟩ := h
            simp only [ckOptListCmp, List.cons_append] at ha hb
            rcases hvk : cqlCmpOpt v k with _ | _ | _
            · have hkv : cqlCmpOpt k v = .gt := by
                rw [← cqlCmpOpt_swapv v k, hvk]
                rfl
              rw [hkv] at hb
              simp [ordThen] at hb
            · have he := cqlCmpOpt_eqv v k hvk
              subst he
              rw [cqlCmpOpt_refl v] at ha hb
              simp only [ordThen] at ha hb
              have hrec := (ckRange_prefix_iff vrest pad krest hlen2).mp
                (by rw [Bool.and_eq_true, notGt_iff, notGt_iff]; exact ⟨ha, hb⟩)
              simp [List.take_succ_cons, hrec]
            · rw [hvk] at ha
              simp [ordThen] at ha
          · intro h
            simp only [List.length_cons, List.take_succ_cons, List.cons.injEq] at h
            obtain ⟨h1, h2⟩ := h
            subst h1
            have hrec := (ckRange_prefix_iff vrest pad krest hlen2).mpr h2
            rw [Bool.and_eq_true, notGt_iff, notGt_iff] at hrec
            obtain ⟨ha, hb⟩ := hrec
            rw [Bool.and_eq_true, notGt_iff, notGt_iff]
            constructor
            · simp only [ckOptListCmp]
              rw [cqlCmpOpt_refl]
              simpa [ordThen] using ha
            · simp only [ckOptListCmp, List.cons_append]
              rw [cqlCmpOpt_refl]
              simpa [ordThen] using hb

/-- Keys of an updated sorted map: the new key or an old key. -/
def sortedUpdate_key_mem {κ β : Type} (cmp : κ → κ → Ordering) (k : κ) (f : Option β → β) :
    (l : List (κ × β)) → ∀ b ∈ sortedUpdate cmp k f l, b.1 = k ∨ b.1 ∈ l.map Prod.fst
  | [], b, hb => by
      rw [show sortedUpdate cmp k f [] = [(k, f none)] from rfl, List.mem_singleton] at hb
      subst hb
      exact Or.inl rfl
  | (k0, v0) :: rest, b, hb => by
      rcases hc : cmp k k0 with _ | _ | _
      · simp only [sortedUpdate, hc] at hb
        rcases List.mem_cons.mp hb with h | h
        · subst h; exact Or.inl rfl
        · exact Or.inr (List.mem_map.mpr ⟨b, h, rfl⟩)
      · simp only [sortedUpdate, hc] at hb
        rcases List.mem_cons.mp hb with h | h
        · subst h; right; simp
        · right
          simp only [List.map_cons]
          exact List.mem_cons_of_mem _ (List.mem_map.mpr ⟨b, h, rfl⟩)
      · simp only [sortedUpdate, hc] at hb
        rcases List.mem_cons.mp hb with h | h
        · subst h; right; simp
        · rcases sortedUpdate_key_mem cmp k f rest b h with h2 | h2
          · exact Or.inl h2
          · right
            simp only [List.map_cons]
            exact List.mem_cons_of_mem _ h2

/-- `sortedUpdate` preserves strict key sortedness. -/
def sortedUpdate_sorted {κ β : Type} {cmp : κ → κ → Ordering} (L : CmpLaws cmp) (k : κ)
    (f : Option β → β) : (l : List (κ × β)) →
    l.Pairwise (fun a b => cmp a.1 b.1 = .lt) →
    (sortedUpdate cmp k f l).Pairwise (fun a b => cmp a.1 b.1 = .lt)
  | [], _ => by simp [sortedUpdate]
  | (k0, v0) :: rest, hs => by
      have h0 : ∀ b ∈ rest, cmp k0 b.1 = .lt := fun b hb => (List.pairwise_cons.mp hs).1 b hb
      have hrest := (List.pairwise_cons.mp hs).2
      rcases hc : cmp k k0 with _ | _ | _
      · simp only [sortedUpdate, hc]
        refine List.pairwise_cons.mpr ⟨?_, hs⟩
        intro b hb
        rcases List.mem_cons.mp hb with h | h
        · subst h; exact hc
        · exact L.trans k k0 b.1 hc (h0 b h)
      · simp only [sortedUpdate, hc]
        exact List.pairwise_cons.mpr ⟨h0, hrest⟩
      · simp only [sortedUpdate, hc]
        refine List.pairwise_cons.mpr ⟨?_, sortedUpdate_sorted L k f rest hrest⟩
        intro b hb
        rcases sortedUpdate_key_mem cmp k f rest b hb with h | h
        · rw [h]; exact L.lt_of_gt hc
        · obtain ⟨a, ha, he⟩ := List.mem_map.mp h
          rw [← he]
          exact h0 a ha

/-- Extending a row by one more trailing pair is one more upsert. -/
def rowPutAll_concat {α : Type} (r : List (String × α)) (vs : List (String × α))
    (x : String × α) : rowPutAll r (vs ++ [x]) =
      sortedUpdate strCmp x.1 (fun _ => x.2) (rowPutAll r vs) := by
  simp [rowPutAll, List.foldl_append]

/-- The `serialize_columns` map is sorted by column name. -/
def sortedEntries_sorted {α : Type} (l : List (String × α)) :
    (sortedEntries l).Pairwise (fun a b => strCmp a.1 b.1 = .lt) := by
  induction l using List.reverseRecOn with
  | nil => simp [sortedEntries, rowPutAll]
  | append_singleton vs x ih =>
      have h2 : sortedEntries (vs ++ [x]) =
          sortedUpdate strCmp x.1 (fun _ => x.2) (sortedEntries vs) := by
        simp [sortedEntries, rowPutAll_concat]
      rw [h2]
      exact sortedUpdate_sorted strCmp_laws x.1 _ _ ih

/-- Membership in a constant upsert at a fresh key. -/
def mem_sortedUpdate_const {κ β : Type} (cmp : κ → κ → Ordering) (k : κ) (v : β) :
    (l : List (κ × β)) → (∀ q ∈ l, cmp k q.1 ≠ .eq) → ∀ p,
    (p ∈ sortedUpdate cmp k (fun _ => v) l ↔ p = (k, v) ∨ p ∈ l)
  | [], _, p => by simp [sortedUpdate]
  | (k0, v0) :: rest, hno, p => by
      have h0 := hno (k0, v0) (List.mem_cons_self _ _)
      have hr := fun q hq => hno q (List.mem_cons_of_mem _ hq)
      rcases hc : cmp k k0 with _ | _ | _
      · simp [sortedUpdate, hc]
      · exact absurd hc h0
      · simp only [sortedUpdate, hc, List.mem_cons]
        rw [mem_sortedUpdate_const cmp k v rest hr p]
        tauto

/-- Every key of the `serialize_columns` map comes from the input pairs. -/
def sortedEntries_keys_sub {α : Type} (l : List (String × α)) :
    ∀ k ∈ (sortedEntries l).map Prod.fst, k ∈ l.map Prod.fst := by
  induction l using List.reverseRecOn with
  | nil => intro k hk; simp [sortedEntries, rowPutAll] at hk
  | append_singleton vs x ih =>
      intro k hk
      obtain ⟨p, hp, he⟩ := List.mem_map.mp hk
      have h2 : sortedEntries (vs ++ [x]) =
          sortedUpdate strCmp x.1 (fun _ => x.2) (sortedEntries vs) := by
        simp [sortedEntries, rowPutAll_concat]
      rw [h2] at hp
      rcases sortedUpdate_key_mem strCmp x.1 _ _ p hp with h | h
      · rw [← he, h]
        simp
      · rw [← he]
        have h3 := ih p.1 h
        simp only [List.map_append]
        exact List.mem_append_left _ h3

/-- With duplicate-free column names the `serialize_columns` map holds
exactly the input pairs. -/
def sortedEntries_mem_iff {α : Type} : (l : List (String × α)) →
    (l.map Prod.fst).Nodup → ∀ p : String × α, (p ∈ sortedEntries l ↔ p ∈ l) := by
  intro l
  induction l using List.reverseRecOn with
  | nil => intro _ p; simp [sortedEntries, rowPutAll]
  | append_singleton vs x ih =>
      intro hnd p
      have hnd2 : (vs.map Prod.fst).Nodup := by
        rw [List.map_append] at hnd
        exact (List.nodup_append.mp hnd).1
      have hx : x.1 ∉ vs.map Prod.fst := by
        rw [List.map_append] at hnd
        intro hmem
        exact (List.nodup_append.mp hnd).2.2 hmem (by simp)
      have h2 : sortedEntries (vs ++ [x]) =
          sortedUpdate strCmp x.1 (fun _ => x.2) (sortedEntries vs) := by
        simp [sortedEntries, rowPutAll_concat]
      rw [h2, mem_sortedUpdate_const strCmp x.1 x.2 (sortedEntries vs)
        (fun q hq heq => hx (by
          rw [strCmp_eq heq]
          exact sortedEntries_keys_sub vs q.1 (List.mem_map.mpr ⟨q, hq, rfl⟩))) p]
      rw [ih hnd2 p]
      simp [List.mem_append, or_comm]

/-- When every entry renders, the whole JSON object renders. -/
def renderAll : (l : List (String × Option CqlValue)) →
    (∀ e ∈ l, ∃ s, renderEntry e = some s) → ∃ parts, l.mapM renderEntry = some parts
  | [], _ => ⟨[], rfl⟩
  | e :: rest, h => by
      obtain ⟨s, hs⟩ := h e (List.mem_cons_self _ _)
      obtain ⟨parts, hp⟩ := renderAll rest (fun q hq => h q (List.mem_cons_of_mem _ hq))
      refine ⟨s :: parts, ?_⟩
      rw [List.mapM_cons, hs, hp]
      rfl

/-- A batch whose statements all succeed returns `Void` with the threaded
engine state. -/
def processBatch_all_ok {Q St V R : Type}
    (process : KvEngineM Q St → Q → V → KvEngineM Q St × Except DbErrorM R) :
    (stmts : List (BatchStatementM Q V)) → ∀ e e1 : KvEngineM Q St,
    batchAllSucceed process stmts e e1 → processBatch process stmts e = (e1, .ok .Void)
  | [], e, e1, h => by
      subst h
      rfl
  | stmt :: rest, e, e1, h => by
      obtain ⟨q, v, e2, r, hres, hproc, hrest⟩ := h
      simp only [processBatch, hres, hproc]
      exact processBatch_all_ok process rest e2 e1 hrest

/-- A batch stops at the first statement whose processing fails, returning
that error and the state reached at that point. -/
def processBatch_stops {Q St V R : Type}
    (process : KvEngineM Q St → Q → V → KvEngineM Q St × Except DbErrorM R)
    (stmt : BatchStatementM Q V) (post : List (BatchStatementM Q V))
    {q : Q} {v : V} {e2 : KvEngineM Q St} {er : DbErrorM} :
    (pre : List (BatchStatementM Q V)) → ∀ e e1 : KvEngineM Q St,
    batchAllSucceed process pre e e1 →
    resolveBatchStatement e1 stmt = .ok (q, v) →
    process e1 q v = (e2, .error er) →
    processBatch process (pre ++ stmt :: post) e = (e2, .error er)
  | [], e, e1, hpre, hres, hproc => by
      subst hpre
      simp only [List.nil_append, processBatch, hres, hproc]
  | s :: rest, e, e1, hpre, hres, hproc => by
      obtain ⟨q0, v0, e0, r0, hres0, hproc0, hrest⟩ := hpre
      simp only [List.cons_append, processBatch, hres0, hproc0]
      exact processBatch_stops process stmt post rest e0 e1 hrest hres hproc

/-- A batch stops at the first statement that fails to resolve (malformed
or unknown prepared id), returning that error with the state reached. -/
def processBatch_stops_resolve {Q St V R : Type}
    (process : KvEngineM Q St → Q → V → KvEngineM Q St × Except DbErrorM R)
    (stmt : BatchStatementM Q V) (post : List (BatchStatementM Q V)) {er : DbErrorM} :
    (pre : List (BatchStatementM Q V)) → ∀ e e1 : KvEngineM Q St,
    batchAllSucceed process pre e e1 →
    resolveBatchStatement e1 stmt = (.error er : Except DbErrorM (Q × V)) →
    processBatch process (pre ++ stmt :: post) e = (e1, .error er)
  | [], e, e1, hpre, hres => by
      subst hpre
      simp only [List.nil_append, processBatch, hres]
  | s :: rest, e, e1, hpre, hres => by
      obtain ⟨q0, v0, e0, r0, hres0, hproc0, hrest⟩ := hpre
      simp only [List.cons_append, processBatch, hres0, hproc0]
      exact processBatch_stops_resolve process stmt post rest e0 e1 hrest hres

/-- C5: the paging-state round-trip FAILS.  The local `bytes_with_vint` of
`paging_state` (frame/request/query_params.rs) returns the original,
un-advanced input when the vint length is 0, so after an absent
`partition_key` the decoder re-reads the same zero byte for `row_mark` and
then parses `remaining` from the wrong offset: encoding
`{partition_key: None, row_mark: Some [1], remaining: 1,
remaining_in_partition: 1}` and decoding yields
`{partition_key: None, row_mark: None, remaining: 0,
remaining_in_partition: 1}`, not the original value. -/
theorem C5_paging_roundtrip_fails :
    optPagingState (PagingStateM.encode ⟨none, some [1], 1, 1⟩) =
      some ([], some ⟨none, none, 0, 1⟩) ∧
    (⟨none, none, 0, 1⟩ : PagingStateM) ≠ ⟨none, some [1], 1, 1⟩ := by
  constructor
  · rfl
  · decide

/-- C1 counterexample: `Empty` is declared LAST in `CqlValue`, so the
derived order puts it strictly ABOVE every other value — `cmp(Empty, Int 0)`
is `Gt`, not the `Lt` the claim asserts. -/
theorem C1_empty_not_minimum :
    cqlCmp .Empty (.Int 0) = .gt ∧ cqlCmp (.Int 0) .Empty = .lt := by
  constructor <;> rfl

/-- C1 (amended): `Empty` is the strict MAXIMUM of the derived `CqlValue`
order (it is the last declared variant), and on any two values of the same
supported type the order agrees with the type's natural order: numeric by
value, text by code-point order, blob lexicographic. -/
theorem C1_order_agrees_empty_max :
    (∀ v : CqlValue, v ≠ .Empty → cqlCmp .Empty v = .gt ∧ cqlCmp v .Empty = .lt) ∧
    (∀ a b : Int, (cqlCmp (.Int a) (.Int b) = .lt ↔ a < b) ∧
      (cqlCmp (.Int a) (.Int b) = .eq ↔ a = b)) ∧
    (∀ a b : Int, cqlCmp (.BigInt a) (.BigInt b) = .lt ↔ a < b) ∧
    (∀ a b : Int, cqlCmp (.SmallInt a) (.SmallInt b) = .lt ↔ a < b) ∧
    (∀ a b : Int, cqlCmp (.TinyInt a) (.TinyInt b) = .lt ↔ a < b) ∧
    (∀ s t : String, (cqlCmp (.Text s) (.Text t) = .lt ↔ List.Lex (· < ·) s.data t.data) ∧
      (cqlCmp (.Text s) (.Text t) = .eq ↔ s = t)) ∧
    (∀ s t : String, cqlCmp (.Ascii s) (.Ascii t) = .lt ↔ List.Lex (· < ·) s.data t.data) ∧
    (∀ a b : List Nat, (cqlCmp (.Blob a) (.Blob b) = .lt ↔ List.Lex (· < ·) a b) ∧
      (cqlCmp (.Blob a) (.Blob b) = .eq ↔ a = b)) := by
  refine ⟨?_, ?_, ?_, ?_, ?_, ?_, ?_, ?_⟩
  · intro v hv
    refine ⟨cqlCmp_empty_gt v hv, ?_⟩
    have h2 := cqlCmp_swapv .Empty v
    rw [cqlCmp_empty_gt v hv] at h2
    exact h2.symm
  · intro a b
    exact ⟨cmpo_lt_iff, cmpo_eq_iff⟩
  · intro a b
    exact cmpo_lt_iff
  · intro a b
    exact cmpo_lt_iff
  · intro a b
    exact cmpo_lt_iff
  · intro s t
    refine ⟨lexCmp_lt_iff, ⟨fun h => strCmp_eq h, fun h => h ▸ strCmp_refl s⟩⟩
  · intro s t
    exact lexCmp_lt_iff
  · intro a b
    exact ⟨lexCmp_lt_iff, ⟨fun h => lexCmp_eq h, fun h => h ▸ lexCmp_refl a⟩⟩

/-- Witness for C1 at concrete values. -/
theorem C1_order_agrees_empty_max_witness :
    cqlCmp .Empty (.Text "a") = .gt ∧ cqlCmp (.Int 3) (.Int 5) = .lt := by
  constructor
  · exact (C1_order_agrees_empty_max.1 (.Text "a") (by decide)).1
  · exact (C1_order_agrees_empty_max.2.1 3 5).1.mpr (by decide)

/-- C8: `KassandraSession::execute` with a 16-byte id absent from the
prepared cache returns `Unprepared` echoing the supplied id bytes and
leaves the engine untouched; with an id stored by `prepare_with_id` it
re-processes the cached statement with the supplied parameters. -/
theorem C8_execute_unprepared_and_cached :
    (∀ (Q St P R : Type)
       (process : KvEngineM Q St → Q → P → KvEngineM Q St × Except DbErrorM R)
       (e : KvEngineM Q St) (idBytes : List Nat) (params : P),
       idBytes.length = 16 → e.retrieve (beNat idBytes) = none →
       sessionExecute process e idBytes params = (e, .error (.unprepared idBytes))) ∧
    (∀ (Q St P R : Type)
       (process : KvEngineM Q St → Q → P → KvEngineM Q St × Except DbErrorM R)
       (e : KvEngineM Q St) (id : Nat) (q : Q) (idBytes : List Nat) (params : P),
       idBytes.length = 16 → beNat idBytes = id →
       sessionExecute process (sessionPrepareWithId e id q) idBytes params =
         process (sessionPrepareWithId e id q) q params) := by
  constructor
  · intro Q St P R process e idBytes params hlen hret
    simp [sessionExecute, hlen, hret]
  · intro Q St P R process e id q idBytes params hlen hid
    have hr : (sessionPrepareWithId e id q).retrieve (beNat idBytes) = some q := by
      rw [hid]
      show natGet id (natPut id q e.query_cache) = some q
      exact natGet_put_self id q e.query_cache
    simp [sessionExecute, hlen, hr]

/-- Witness for C8 at a concrete engine and id. -/
theorem C8_execute_unprepared_and_cached_witness :
    sessionExecute (fun (e : KvEngineM Nat Unit) (q : Nat) (_ : Unit) => (e, .ok q))
        (⟨[], ()⟩ : KvEngineM Nat Unit)
        [0, 0, 0, 0, 0, 0, 0, 0, 0, 0, 0, 0, 0, 0, 0, 7] () =
      ((⟨[], ()⟩ : KvEngineM Nat Unit),
        .error (.unprepared [0, 0, 0, 0, 0, 0, 0, 0, 0, 0, 0, 0, 0, 0, 0, 7])) ∧
    sessionExecute (fun (e : KvEngineM Nat Unit) (q : Nat) (_ : Unit) => (e, .ok q))
        (sessionPrepareWithId (⟨[], ()⟩ : KvEngineM Nat Unit) 7 42)
        [0, 0, 0, 0, 0, 0, 0, 0, 0, 0, 0, 0, 0, 0, 0, 7] () =
      (sessionPrepareWithId (⟨[], ()⟩ : KvEngineM Nat Unit) 7 42, .ok 42) := by
  constructor
  · exact C8_execute_unprepared_and_cached.1 Nat Unit Unit Nat
      (fun e q _ => (e, .ok q)) ⟨[], ()⟩
      [0, 0, 0, 0, 0, 0, 0, 0, 0, 0, 0, 0, 0, 0, 0, 7] () (by decide) rfl
  · rw [C8_execute_unprepared_and_cached.2 Nat Unit Unit Nat
      (fun e q _ => (e, .ok q)) ⟨[], ()⟩ 7 42
      [0, 0, 0, 0, 0, 0, 0, 0, 0, 0, 0, 0, 0, 0, 0, 7] () (by decide) (by decide)]

/-- C7: a batch executes its statements in order through `process`; when
every statement succeeds the result is `Void` with the threaded engine
state; the first failing statement (a processing error, or a statement that
fails to resolve) stops the batch and its error is returned with the state
reached at that point — prior effects are kept, later statements never
run. -/
theorem C7_batch_stops_at_first_error :
    (∀ (Q St V R : Type)
       (process : KvEngineM Q St → Q → V → KvEngineM Q St × Except DbErrorM R)
       (stmts : List (BatchStatementM Q V)) (e e1 : KvEngineM Q St),
       batchAllSucceed process stmts e e1 →
       processBatch process stmts e = (e1, .ok .Void)) ∧
    (∀ (Q St V R : Type)
       (process : KvEngineM Q St → Q → V → KvEngineM Q St × Except DbErrorM R)
       (pre post : List (BatchStatementM Q V)) (stmt : BatchStatementM Q V)
       (e e1 e2 : KvEngineM Q St) (q : Q) (v : V) (er : DbErrorM),
       batchAllSucceed process pre e e1 →
       resolveBatchStatement e1 stmt = .ok (q, v) →
       process e1 q v = (e2, .error er) →
       processBatch process (pre ++ stmt :: post) e = (e2, .error er)) ∧
    (∀ (Q St V R : Type)
       (process : KvEngineM Q St → Q → V → KvEngineM Q St × Except DbErrorM R)
       (pre post : List (BatchStatementM Q V)) (stmt : BatchStatementM Q V)
       (e e1 : KvEngineM Q St) (er : DbErrorM),
       batchAllSucceed process pre e e1 →
       resolveBatchStatement e1 stmt = (.error er : Except DbErrorM (Q × V)) →
       processBatch process (pre ++ stmt :: post) e = (e1, .error er)) := by
  refine ⟨?_, ?_, ?_⟩
  · intro Q St V R process stmts e e1 h
    exact processBatch_all_ok process stmts e e1 h
  · intro Q St V R process pre post stmt e e1 e2 q v er hpre hres hproc
    exact processBatch_stops process stmt post pre e e1 hpre hres hproc
  · intro Q St V R process pre post stmt e e1 er hpre hres
    exact processBatch_stops_resolve process stmt post pre e e1 hpre hres

/-- Witness for C7: a three-statement batch whose second statement fails
keeps the first statement's effect, returns the failing error, and never
runs the third statement. -/
theorem C7_batch_stops_at_first_error_witness :
    processBatch
      (fun (e : KvEngineM Nat (List Nat)) (q : Nat) (_ : Unit) =>
        if q = 0 then (e, .error .invalid)
        else (⟨e.query_cache, q :: e.store⟩, .ok QueryResultM.Void))
      [.query 1 (), .query 0 (), .query 2 ()] ⟨[], []⟩ =
      ((⟨[], [1]⟩ : KvEngineM Nat (List Nat)), .error .invalid) :=
  C7_batch_stops_at_first_error.2.1 Nat (List Nat) Unit QueryResultM
    (fun e q _ =>
      if q = 0 then (e, .error .invalid)
      else (⟨e.query_cache, q :: e.store⟩, .ok QueryResultM.Void))
    [.query 1 ()] [.query 2 ()] (.query 0 ()) ⟨[], []⟩ ⟨[], [1]⟩ ⟨[], [1]⟩ 0 () .invalid
    ⟨1, (), ⟨[], [1]⟩, .Void, rfl, rfl, rfl⟩ rfl rfl

/-- C4: `SelectNode::execute` scans the partition bounded by `limit`,
emits at most `result_page_size` rows through the selector, carries no
paging state when the iterator ends within the page, and otherwise attaches
a paging token whose `row_mark` is the clustering key of the next
(not yet emitted) row, whose `remaining` is `limit` minus the rows emitted,
and whose partition component is absent. -/
theorem C4_select_page_semantics :
    ∀ (node : SelectNodeM) (m : Memory),
      node.metadata.paging_state = none →
      ((node.execute m).rows =
        (((m.readRows node.keyspace node.table node.partition_key
            node.clustering_range).take node.limit).take node.result_page_size).map
          (fun e => RowM.mk (selectorFilter e.2 node.selector)) ∧
       (((m.readRows node.keyspace node.table node.partition_key
            node.clustering_range).take node.limit).length ≤ node.result_page_size →
          (node.execute m).metadata.paging_state = none) ∧
       (∀ marker, ((m.readRows node.keyspace node.table node.partition_key
            node.clustering_range).take node.limit)[node.result_page_size]? = some marker →
          (node.execute m).metadata.paging_state =
            some ⟨none, some (clusteringValueBytes marker.1),
              node.limit - (((m.readRows node.keyspace node.table node.partition_key
                node.clustering_range).take node.limit).take
                  node.result_page_size).length, 1⟩)) := by
  intro node m hps
  refine ⟨?_, ?_, ?_⟩
  · simp only [SelectNodeM.execute, selectLoop_spec]
  · intro hle
    have hnone : ((m.readRows node.keyspace node.table node.partition_key
        node.clustering_range).take node.limit)[node.result_page_size]? = none :=
      List.getElem?_eq_none hle
    simp only [SelectNodeM.execute, selectLoop_spec, hnone]
    exact hps
  · intro marker hm
    simp only [SelectNodeM.execute, selectLoop_spec, hm]
    simp [List.length_map]

/-- Witness for C4 on a three-row partition with page size 2 and limit 10:
the page fills, the marker is the third row's key, and `remaining` is 8. -/
theorem C4_select_page_semantics_witness :
    (SelectNodeM.execute
        ⟨"k", "t", .Simple (.Int 0), .Full, [⟨"a", .Identity⟩], ⟨none, none, []⟩, 10, 2⟩
        ⟨[("k", [("t", [(.Simple (.Int 0),
          [(.Simple (some (.Int 1)), [("a", .Int 1)]),
           (.Simple (some (.Int 2)), [("a", .Int 2)]),
           (.Simple (some (.Int 3)), [("a", .Int 3)])])])])]⟩).metadata.paging_state =
      some ⟨none, some (clusteringValueBytes (.Simple (some (.Int 3)))), 8, 1⟩ :=
  (C4_select_page_semantics
    ⟨"k", "t", .Simple (.Int 0), .Full, [⟨"a", .Identity⟩], ⟨none, none, []⟩, 10, 2⟩
    ⟨[("k", [("t", [(.Simple (.Int 0),
      [(.Simple (some (.Int 1)), [("a", .Int 1)]),
       (.Simple (some (.Int 2)), [("a", .Int 2)]),
       (.Simple (some (.Int 3)), [("a", .Int 3)])])])])]⟩ rfl).2.2
    (.Simple (some (.Int 3)), [("a", .Int 3)]) rfl

/-- C10: for a simple clustering key bound to `v` the planner builds
`From(Simple(Some v))` with no upper bound, so the read returns every row
of the partition whose clustering key is greater than or equal to `v`
(not only the row with key `v`), in ascending stored order. -/
theorem C10_simple_key_from_range :
    ∀ (name : String) (v : CqlValue) (raw : List (String × Option CqlValue)) (m : Memory)
      (ks tbl : String) (pk : PartitionKeyValue) (kdata : KeyspaceData) (tdata : TableData)
      (p : PartitionData),
      alistGet name raw = some (some v) →
      alistGet ks m.data = some kdata →
      alistGet tbl kdata = some tdata →
      sortedGet pkCmp pk tdata = some p →
      p.Pairwise (fun a b => ckCmp a.1 b.1 = .lt) →
      (getClusteringKeyRange (.Simple name) raw = .ok (.From (.Simple (some v))) ∧
       (∀ e, e ∈ m.readRows ks tbl pk (.From (.Simple (some v))) ↔
          e ∈ p ∧ ckCmp e.1 (.Simple (some v)) ≠ .lt) ∧
       (m.readRows ks tbl pk (.From (.Simple (some v)))).Pairwise
          (fun a b => ckCmp a.1 b.1 = .lt)) := by
  intro name v raw m ks tbl pk kdata tdata p hraw hks htbl hpart hsorted
  refine ⟨?_, ?_, ?_⟩
  · simp [getClusteringKeyRange, hraw]
  · intro e
    simp only [Memory.readRows, hks, htbl, hpart]
    rw [List.mem_filter]
    constructor
    · rintro ⟨hmem, hc⟩
      refine ⟨hmem, ?_⟩
      simp only [ckRangeContains, Bool.and_true] at hc
      rw [notGt_iff] at hc
      intro hlt
      apply hc
      rw [← ckCmp_swap e.1 (.Simple (some v)), hlt]
      rfl
    · rintro ⟨hmem, hge⟩
      refine ⟨hmem, ?_⟩
      simp only [ckRangeContains, Bool.and_true]
      rw [notGt_iff]
      intro hgt
      apply hge
      rw [← ckCmp_swap (ClusteringKeyValue.Simple (some v)) e.1, hgt]
      rfl
  · simp only [Memory.readRows, hks, htbl, hpart]
    exact List.Pairwise.sublist (List.filter_sublist _) hsorted

/-- Witness for C10: with clustering keys 1, 2, 3 and `WHERE c = 2` the
row with key 3 is also returned. -/
theorem C10_simple_key_from_range_witness :
    getClusteringKeyRange (.Simple "c") [("c", some (.Int 2))] =
      .ok (.From (.Simple (some (.Int 2)))) ∧
    ((.Simple (some (.Int 3)), [("a", CqlValue.Int 3)]) ∈
      Memory.readRows
        ⟨[("k", [("t", [(.Simple (.Int 0),
          [(.Simple (some (.Int 1)), [("a", .Int 1)]),
           (.Simple (some (.Int 2)), [("a", .Int 2)]),
           (.Simple (some (.Int 3)), [("a", .Int 3)])])])])]⟩
        "k" "t" (.Simple (.Int 0)) (.From (.Simple (some (.Int 2))))) := by
  have h := C10_simple_key_from_range "c" (.Int 2) [("c", some (.Int 2))]
    ⟨[("k", [("t", [(.Simple (.Int 0),
      [(.Simple (some (.Int 1)), [("a", .Int 1)]),
       (.Simple (some (.Int 2)), [("a", .Int 2)]),
       (.Simple (some (.Int 3)), [("a", .Int 3)])])])])]⟩
    "k" "t" (.Simple (.Int 0)) _ _ _ rfl rfl rfl rfl (by decide)
  exact ⟨h.1, (h.2.1 _).mpr ⟨by decide, by decide⟩⟩

/-- Removing a clustering key from a sorted partition keeps exactly the
rows with a different key. -/
theorem sortedRemove_filter_ne (ck : ClusteringKeyValue) (p : PartitionData)
    (hs : p.Pairwise (fun a b => ckCmp a.1 b.1 = .lt)) :
    sortedRemove ckCmp ck p = p.filter (fun e => decide (e.1 ≠ ck)) := by
  rw [sortedRemove_eq_filter ckCmp_laws ck p hs]
  apply List.filter_congr
  intro e he
  simp only [decide_eq_decide]
  constructor
  · intro h1 h2
    apply h1
    rw [h2]
    exact ckCmp_refl ck
  · intro h1 h2
    exact h1 (ckCmp_eqv ck e.1 h2).symm

/-- C3 counterexample: deleting the only row of a partition leaves the
partition present (with zero rows) in the table map — the partition is NOT
removed, contradicting the claim that a partition with zero surviving rows
is never observable. -/
theorem C3_empty_partition_observable :
    Memory.delete
        ⟨[("ks", [("t", [(.Simple (.Text "p"),
          [(.Simple (some (.Text "a")), [("v", .Text "x")])])])])]⟩
        "ks" "t" (.Simple (.Text "p")) (.Simple (some (.Text "a"))) =
      .ok ⟨[("ks", [("t", [(.Simple (.Text "p"), [])])])]⟩ ∧
    (sortedGet pkCmp (.Simple (.Text "p"))
        [((.Simple (.Text "p") : PartitionKeyValue), ([] : PartitionData))]).isSome = true := by
  constructor
  · rfl
  · rfl

/-- C3 (amended): `Memory::delete` with `ck = Empty` removes the entire
partition; with any other `ck` it removes exactly the single clustering row
with that key, but the partition itself remains in the table map even when
its last row is deleted — an emptied partition stays present and subsequent
reads of it simply yield no rows. -/
theorem C3_delete_keeps_empty_partition :
    ∀ (m : Memory) (ks tbl : String) (pk : PartitionKeyValue) (ck : ClusteringKeyValue)
      (kdata : KeyspaceData) (tdata : TableData) (p : PartitionData),
      alistGet ks m.data = some kdata →
      alistGet tbl kdata = some tdata →
      tdata.Pairwise (fun a b => pkCmp a.1 b.1 = .lt) →
      sortedGet pkCmp pk tdata = some p →
      p.Pairwise (fun a b => ckCmp a.1 b.1 = .lt) →
      ((ck = .Empty → ∀ m2, Memory.delete m ks tbl pk ck = .ok m2 →
          sortedGet pkCmp pk ((alistGet tbl ((alistGet ks m2.data).getD [])).getD []) =
            none) ∧
       (ck ≠ .Empty → ∀ m2, Memory.delete m ks tbl pk ck = .ok m2 →
          sortedGet pkCmp pk ((alistGet tbl ((alistGet ks m2.data).getD [])).getD []) =
            some (p.filter (fun e => decide (e.1 ≠ ck))) ∧
          (∀ r, m2.readRows ks tbl pk r =
            (p.filter (fun e => decide (e.1 ≠ ck))).filter
              (fun e => ckRangeContains r e.1)))) := by
  intro m ks tbl pk ck kdata tdata p hks htbl hts hpart hps
  constructor
  · intro hck m2 hdel
    subst hck
    simp only [Memory.delete, hks, htbl, pure, Except.pure, Except.ok.injEq] at hdel
    subst hdel
    simp only [alistGet_put_self, Option.getD_some]
    exact sortedGet_remove_self pkCmp_laws pk tdata hts
  · intro hck m2 hdel
    cases ck with
    | Empty => exact absurd rfl hck
    | Simple vv =>
        simp only [Memory.delete, hks, htbl, hpart, pure, Except.pure,
          Except.ok.injEq] at hdel
        subst hdel
        constructor
        · simp only [alistGet_put_self, Option.getD_some]
          rw [sortedGet_update_const pkCmp_laws pk, sortedRemove_filter_ne _ p hps]
        · intro r
          simp only [Memory.readRows, alistGet_put_self, Option.getD_some]
          rw [sortedGet_update_const pkCmp_laws pk, sortedRemove_filter_ne _ p hps]
    | Composite vs =>
        simp only [Memory.delete, hks, htbl, hpart, pure, Except.pure,
          Except.ok.injEq] at hdel
        subst hdel
        constructor
        · simp only [alistGet_put_self, Option.getD_some]
          rw [sortedGet_update_const pkCmp_laws pk, sortedRemove_filter_ne _ p hps]
        · intro r
          simp only [Memory.readRows, alistGet_put_self, Option.getD_some]
          rw [sortedGet_update_const pkCmp_laws pk, sortedRemove_filter_ne _ p hps]

/-- Witness for C3: deleting the only row of a concrete partition leaves
the (now empty) partition present, and a full-range read of it is empty. -/
theorem C3_delete_keeps_empty_partition_witness :
    (match Memory.delete
        ⟨[("ks2", [("t2", [(.Simple (.Int 5),
          [(.Simple (some (.Int 7)), [("v", .Int 1)])])])])]⟩
        "ks2" "t2" (.Simple (.Int 5)) (.Simple (some (.Int 7))) with
      | .ok m2 => sortedGet pkCmp (.Simple (.Int 5))
            ((alistGet "t2" ((alistGet "ks2" m2.data).getD [])).getD []) = some [] ∧
          m2.readRows "ks2" "t2" (.Simple (.Int 5)) .Full = []
      | .error _ => False) := by
  have h := (C3_delete_keeps_empty_partition
      ⟨[("ks2", [("t2", [(.Simple (.Int 5),
        [(.Simple (some (.Int 7)), [("v", .Int 1)])])])])]⟩
      "ks2" "t2" (.Simple (.Int 5)) (.Simple (some (.Int 7))) _ _ _
      rfl rfl (by decide) rfl (by decide)).2 (by decide) _ rfl
  exact ⟨h.1, (h.2 .Full).trans rfl⟩

/-- Zipping a duplicate-free name list keeps the keys duplicate-free. -/
theorem map_fst_zip_nodup {α β : Type} :
    (l1 : List α) → (l2 : List β) → l1.Nodup → ((l1.zip l2).map Prod.fst).Nodup
  | [], _, _ => by simp
  | a :: r, [], _ => by simp
  | a :: r, b :: s, hnd => by
      simp only [List.zip_cons_cons, List.map_cons]
      refine List.nodup_cons.mpr ⟨?_, map_fst_zip_nodup r s (List.nodup_cons.mp hnd).2⟩
      intro hmem
      obtain ⟨q, hq, he⟩ := List.mem_map.mp hmem
      obtain ⟨x, y⟩ := q
      have h2 := (List.of_mem_zip hq).1
      apply (List.nodup_cons.mp hnd).1
      rw [← he]
      exact h2

/-- C9 counterexample: with selector order `b, a` the JSON node renders the
object with its keys in SORTED order (`a` first), not in the selector's
column order, because `serialize_columns` goes through a `BTreeMap`. -/
theorem C9_keys_sorted_not_selector_order :
    (jsonNodeTransform ⟨⟨none, none, [⟨none, "b", .Int⟩, ⟨none, "a", .Int⟩]⟩,
        [⟨[some (.Int 1), some (.Int 2)]⟩]⟩).rows =
      [⟨[some (.Text "\x7b\"a\":2,\"b\":1\x7d")]⟩] ∧
    ("\x7b\"a\":2,\"b\":1\x7d" : String) ≠ "\x7b\"b\":1,\"a\":2\x7d" := by
  constructor
  · rfl
  · decide

/-- C9 (amended): the Json node keeps the global spec and paging state,
sets the metadata to the single column `json : Text`, and replaces each row
with one `Text` value serializing the zip of the declared column names with
the row's values as a JSON object whose entries are exactly those pairs
(nulls preserved) ordered by ASCENDING COLUMN NAME (`BTreeMap` order), not
by the selector's column order. -/
theorem C9_json_rows_sorted_object :
    ∀ r : RowsM,
      (r.metadata.col_specs.map (fun c => c.name)).Nodup →
      (∀ row ∈ r.rows, ∀ e ∈ (r.metadata.col_specs.map (fun c => c.name)).zip row.columns,
         ∃ s, renderEntry e = some s) →
      ((jsonNodeTransform r).metadata.col_specs = [⟨none, "json", .Text⟩] ∧
       (jsonNodeTransform r).metadata.global_spec = r.metadata.global_spec ∧
       (jsonNodeTransform r).metadata.paging_state = r.metadata.paging_state ∧
       (∀ row ∈ r.rows,
          (sortedEntries ((r.metadata.col_specs.map (fun c => c.name)).zip
              row.columns)).Pairwise (fun a b => strCmp a.1 b.1 = .lt) ∧
          (∀ q, q ∈ sortedEntries ((r.metadata.col_specs.map (fun c => c.name)).zip
              row.columns) ↔
            q ∈ (r.metadata.col_specs.map (fun c => c.name)).zip row.columns)) ∧
       (∀ (i : Nat) (row : RowM), r.rows[i]? = some row →
          ∃ s, serializeColumns (r.metadata.col_specs.map (fun c => c.name))
              row.columns = some s ∧
            (jsonNodeTransform r).rows[i]? = some ⟨[some (.Text s)]⟩)) := by
  intro r hnd hmod
  refine ⟨rfl, rfl, rfl, ?_, ?_⟩
  · intro row hrow
    refine ⟨sortedEntries_sorted _, ?_⟩
    intro q
    exact sortedEntries_mem_iff _ (map_fst_zip_nodup _ row.columns hnd) q
  · intro i row hrow
    have hrmem : row ∈ r.rows := List.getElem?_mem hrow
    have hentries : ∀ e ∈ sortedEntries ((r.metadata.col_specs.map (fun c => c.name)).zip
        row.columns), ∃ s, renderEntry e = some s := fun e he =>
      hmod row hrmem e
        ((sortedEntries_mem_iff _ (map_fst_zip_nodup _ row.columns hnd) e).mp he)
    obtain ⟨parts, hparts⟩ := renderAll _ hentries
    have hsc : serializeColumns (r.metadata.col_specs.map (fun c => c.name))
        row.columns = some ("\x7b" ++ String.intercalate "," parts ++ "\x7d") := by
      unfold serializeColumns renderObject
      rw [hparts]
      rfl
    refine ⟨"\x7b" ++ String.intercalate "," parts ++ "\x7d", hsc, ?_⟩
    simp only [jsonNodeTransform, List.getElem?_map, hrow]
    simp [hsc]

/-- Witness for C9: a concrete two-column row (one value null) renders, the
map holds exactly the zipped pairs (the null included), and the metadata
collapses to the single `json : Text` column. -/
theorem C9_json_rows_sorted_object_witness :
    (jsonNodeTransform ⟨⟨none, none, [⟨none, "b", .Int⟩, ⟨none, "a", .Int⟩]⟩,
        [⟨[some (.Int 1), none]⟩]⟩).metadata.col_specs = [⟨none, "json", .Text⟩] ∧
    (("a", (none : Option CqlValue)) ∈
      sortedEntries [("b", some (.Int 1)), ("a", (none : Option CqlValue))]) := by
  have h := C9_json_rows_sorted_object
    ⟨⟨none, none, [⟨none, "b", .Int⟩, ⟨none, "a", .Int⟩]⟩, [⟨[some (.Int 1), none]⟩]⟩
    (by decide)
    (by
      intro row hrow e he
      rw [List.mem_singleton] at hrow
      subst hrow
      simp only [List.map_cons, List.map_nil, List.zip_cons_cons, List.zip_nil_right,
        List.mem_cons, List.not_mem_nil, or_false] at he
      rcases he with h1 | h1
      · subst h1
        exact ⟨_, rfl⟩
      · subst h1
        exact ⟨_, rfl⟩)
  refine ⟨h.1, ?_⟩
  exact ((h.2.2.2.1 ⟨[some (.Int 1), none]⟩ (by simp)).2 ("a", none)).mpr (by decide)

/-- C6: `create_keyspace` and `create_table` are idempotent under
`IF NOT EXISTS` — the second call returns the same catalog, storage rows
and object — and on an existing name without `if_not_exists` they fail with
`AlreadyExists` (keyspace errors carry an empty table name) before touching
storage. -/
theorem C6_create_idempotent_and_atomic :
    (∀ (schema : SchemaM) (m : Memory) (name : String) (strat : StrategyM)
       (schema2 : SchemaM) (m2 : Memory) (ks : KeyspaceM),
       persistedCreateKeyspace schema m name true strat = .ok (schema2, m2, ks) →
       persistedCreateKeyspace schema2 m2 name true strat = .ok (schema2, m2, ks)) ∧
    (∀ (schema : SchemaM) (m : Memory) (name : String) (strat : StrategyM)
       (ks0 : KeyspaceM),
       alistGet name schema = some ks0 →
       persistedCreateKeyspace schema m name false strat =
         .error (.alreadyExists name "")) ∧
    (∀ (schema : SchemaM) (m : Memory) (ksn tbl : String) (ts : TableSchemaM)
       (schema2 : SchemaM) (m2 : Memory) (t : TableM),
       persistedCreateTable schema m ksn tbl true ts = .ok (schema2, m2, t) →
       (t.schema.columns.map Prod.fst).Nodup →
       persistedCreateTable schema2 m2 ksn tbl true ts = .ok (schema2, m2, t)) ∧
    (∀ (schema : SchemaM) (m : Memory) (ksn tbl : String) (ts : TableSchemaM)
       (ks0 : KeyspaceM) (t0 : TableM),
       alistGet ksn schema = some ks0 → alistGet tbl ks0.tables = some t0 →
       persistedCreateTable schema m ksn tbl false ts =
         .error (.alreadyExists ksn tbl)) := by
  refine ⟨?_, ?_, ?_, ?_⟩
  · intro schema m name strat schema2 m2 ks h
    exact persistedCreateKeyspace_idem schema m name strat h
  · intro schema m name strat ks0 h
    simp [persistedCreateKeyspace, schemaCreateKeyspace, h, Except.bind, bind]
  · intro schema m ksn tbl ts schema2 m2 t h hnd
    exact persistedCreateTable_idem schema m ksn tbl ts h hnd
  · intro schema m ksn tbl ts ks0 t0 h1 h2
    simp [persistedCreateTable, schemaCreateTable, h1, h2, Except.bind, bind]

/-- Witness for C6: creating a concrete keyspace and then a concrete table
twice with `IF NOT EXISTS` reproduces the exact same state. -/
theorem C6_create_idempotent_and_atomic_witness :
    (match persistedCreateKeyspace [] ⟨[]⟩ "k" true (.SimpleStrategy 1) with
     | .ok (s2, m2, ks) =>
         persistedCreateKeyspace s2 m2 "k" true (.SimpleStrategy 1) = .ok (s2, m2, ks)
     | .error _ => False) ∧
    (match persistedCreateTable [("k", ⟨"k", .SimpleStrategy 1, [], []⟩)] ⟨[]⟩ "k" "t" true
        ⟨[("id", ⟨.Int, .PartitionKey⟩)], .Simple "id", .Empty, none⟩ with
     | .ok (s2, m2, t) =>
         persistedCreateTable s2 m2 "k" "t" true
           ⟨[("id", ⟨.Int, .PartitionKey⟩)], .Simple "id", .Empty, none⟩ = .ok (s2, m2, t)
     | .error _ => False) := by
  constructor
  · exact C6_create_idempotent_and_atomic.1 [] ⟨[]⟩ "k" (.SimpleStrategy 1) _ _ _ rfl
  · exact C6_create_idempotent_and_atomic.2.2.1 [("k", ⟨"k", .SimpleStrategy 1, [], []⟩)]
      ⟨[]⟩ "k" "t" ⟨[("id", ⟨.Int, .PartitionKey⟩)], .Simple "id", .Empty, none⟩ _ _ _
      rfl (by decide)

/-- C2: a fully absent clustering key maps to the full range, and for a
partition read with a (possibly partial) prefix of a composite clustering
key the planner yields
`Range(Composite(prefix), Composite(prefix ++ Empty padding))`, and reading
that range returns exactly the partition's rows whose clustering key
extends the prefix, in ascending stored order; the full clustering key
selects (at most) the single matching row, and the empty prefix selects the
whole partition. -/
theorem C2_composite_prefix_range :
    ∀ (names : List String) (vals : List CqlValue) (m : Memory) (ks tbl : String)
      (pk : PartitionKeyValue) (kdata : KeyspaceData) (tdata : TableData)
      (p : PartitionData),
      names.Nodup →
      vals.length ≤ names.length →
      alistGet ks m.data = some kdata →
      alistGet tbl kdata = some tdata →
      sortedGet pkCmp pk tdata = some p →
      p.Pairwise (fun a b => ckCmp a.1 b.1 = .lt) →
      (∀ e ∈ p, ∃ kslots : List (Option CqlValue),
         e.1 = .Composite kslots ∧ kslots.length = names.length) →
      ((∀ raw2 : List (String × Option CqlValue),
         getClusteringKeyRange .Empty raw2 = .ok .Full) ∧
       getClusteringKeyRange (.Composite names)
          ((names.take vals.length).zip (vals.map some)) =
        .ok (.Range (.Composite (vals.map some))
          (.Composite (vals.map some ++
            List.replicate (names.length - vals.length) (some .Empty)))) ∧
       m.readRows ks tbl pk
          (.Range (.Composite (vals.map some))
            (.Composite (vals.map some ++
              List.replicate (names.length - vals.length) (some .Empty)))) =
         p.filter (fun e => match e.1 with
           | .Composite kslots => decide (kslots.take vals.length = vals.map some)
           | _ => false) ∧
       (m.readRows ks tbl pk
          (.Range (.Composite (vals.map some))
            (.Composite (vals.map some ++
              List.replicate (names.length - vals.length) (some .Empty))))).Pairwise
          (fun a b => ckCmp a.1 b.1 = .lt) ∧
       (vals.length = names.length →
          m.readRows ks tbl pk
              (.Range (.Composite (vals.map some))
                (.Composite (vals.map some ++
                  List.replicate (names.length - vals.length) (some .Empty)))) =
            p.filter (fun e => decide (e.1 = .Composite (vals.map some))) ∧
          (m.readRows ks tbl pk
              (.Range (.Composite (vals.map some))
                (.Composite (vals.map some ++
                  List.replicate (names.length - vals.length) (some .Empty))))).length ≤ 1) ∧
       (vals = [] →
          m.readRows ks tbl pk
              (.Range (.Composite (vals.map some))
                (.Composite (vals.map some ++
                  List.replicate (names.length - vals.length) (some .Empty)))) = p)) := by
  intro names vals m ks tbl pk kdata tdata p hnd hlen hks htbl hpart hsorted hshape
  have hfullr : ∀ raw2 : List (String × Option CqlValue),
      getClusteringKeyRange .Empty raw2 = .ok .Full := fun _ => rfl
  have hrange : getClusteringKeyRange (.Composite names)
      ((names.take vals.length).zip (vals.map some)) =
      .ok (.Range (.Composite (vals.map some))
        (.Composite (vals.map some ++
          List.replicate (names.length - vals.length) (some .Empty)))) := by
    simp only [getClusteringKeyRange, collect_zip vals names hnd hlen, Except.bind, bind,
      PrimaryKeyM.count, List.length_map]
  have hpt : ∀ e ∈ p, ckRangeContains
      (.Range (.Composite (vals.map some))
        (.Composite (vals.map some ++
          List.replicate (names.length - vals.length) (some .Empty)))) e.1 =
      (match e.1 with
       | .Composite kslots => decide (kslots.take vals.length = vals.map some)
       | _ => false) := by
    intro e he
    obtain ⟨kslots, hk, hklen⟩ := hshape e he
    rw [hk]
    show (notGt (ckOptListCmp (vals.map some) kslots) &&
      notGt (ckOptListCmp kslots
        (vals.map some ++ List.replicate (names.length - vals.length) (some .Empty)))) =
      decide (kslots.take vals.length = vals.map some)
    have hklen2 : kslots.length = (vals.map some).length + (names.length - vals.length) := by
      rw [List.length_map]
      omega
    have hiff := ckRange_prefix_iff (vals.map some) (names.length - vals.length) kslots hklen2
    by_cases hp2 : kslots.take vals.length = vals.map some
    · have hp2' : kslots.take (vals.map some).length = vals.map some := by
        rw [List.length_map]
        exact hp2
      rw [hiff.mpr hp2', decide_eq_true hp2]
    · rw [decide_eq_false hp2, Bool.eq_false_iff]
      intro htrue
      apply hp2
      have h3 := hiff.mp htrue
      rw [List.length_map] at h3
      exact h3
  have hread : m.readRows ks tbl pk
      (.Range (.Composite (vals.map some))
        (.Composite (vals.map some ++
          List.replicate (names.length - vals.length) (some .Empty)))) =
      p.filter (fun e => match e.1 with
        | .Composite kslots => decide (kslots.take vals.length = vals.map some)
        | _ => false) := by
    simp only [Memory.readRows, hks, htbl, hpart]
    exact List.filter_congr hpt
  refine ⟨hfullr, hrange, hread, ?_, ?_, ?_⟩
  · rw [hread]
    exact List.Pairwise.sublist (List.filter_sublist _) hsorted
  · intro hfull
    have hpred : ∀ e ∈ p, (match e.1 with
        | ClusteringKeyValue.Composite kslots =>
            decide (kslots.take vals.length = vals.map some)
        | _ => false) = decide (e.1 = .Composite (vals.map some)) := by
      intro e he
      obtain ⟨kslots, hk, hklen⟩ := hshape e he
      rw [hk]
      show decide (kslots.take vals.length = vals.map some) =
        decide (ClusteringKeyValue.Composite kslots = .Composite (vals.map some))
      have htake : kslots.take vals.length = kslots :=
        List.take_of_length_le (by omega)
      rw [htake]
      simp only [decide_eq_decide]
      constructor
      · intro h2
        rw [h2]
      · intro h2
        injection h2 with h3
    constructor
    · rw [hread]
      exact List.filter_congr hpred
    · rw [hread, List.filter_congr hpred]
      exact filter_ck_eq_len (.Composite (vals.map some)) p hsorted
  · intro hnil
    subst hnil
    rw [hread]
    have hall : ∀ e ∈ p, (match e.1 with
        | ClusteringKeyValue.Composite kslots =>
            decide (kslots.take (List.length ([] : List CqlValue)) =
              List.map some ([] : List CqlValue))
        | _ => false) = true := by
      intro e he
      obtain ⟨kslots, hk, _⟩ := hshape e he
      rw [hk]
      simp
    exact (List.filter_congr hall).trans (List.filter_true p)

/-- Witness for C2: the prefix `c1 = 1` of the composite key `(c1, c2)`
returns exactly the two rows extending it, and the planner pads the upper
bound with `Empty`. -/
theorem C2_composite_prefix_range_witness :
    getClusteringKeyRange (.Composite ["c1", "c2"]) [("c1", some (.Int 1))] =
      .ok (.Range (.Composite [some (.Int 1)])
        (.Composite [some (.Int 1), some .Empty])) ∧
    Memory.readRows
        ⟨[("k", [("t", [(.Simple (.Int 0),
          [(.Composite [some (.Int 1), some (.Int 1)], [("a", CqlValue.Int 1)]),
           (.Composite [some (.Int 1), some (.Int 2)], [("a", CqlValue.Int 2)]),
           (.Composite [some (.Int 2), some (.Int 1)], [("a", CqlValue.Int 3)])])])])]⟩
        "k" "t" (.Simple (.Int 0))
        (.Range (.Composite [some (.Int 1)]) (.Composite [some (.Int 1), some .Empty])) =
      [(.Composite [some (.Int 1), some (.Int 1)], [("a", CqlValue.Int 1)]),
       (.Composite [some (.Int 1), some (.Int 2)], [("a", CqlValue.Int 2)])] := by
  have h := C2_composite_prefix_range ["c1", "c2"] [.Int 1]
    ⟨[("k", [("t", [(.Simple (.Int 0),
      [(.Composite [some (.Int 1), some (.Int 1)], [("a", CqlValue.Int 1)]),
       (.Composite [some (.Int 1), some (.Int 2)], [("a", CqlValue.Int 2)]),
       (.Composite [some (.Int 2), some (.Int 1)], [("a", CqlValue.Int 3)])])])])]⟩
    "k" "t" (.Simple (.Int 0)) _ _ _
    (by decide) (by decide) rfl rfl rfl (by decide)
    (by
      intro e he
      simp only [List.mem_cons, List.not_mem_nil, or_false] at he
      rcases he with h1 | h1 | h1 <;> subst h1 <;> exact ⟨_, rfl, rfl⟩)
  exact ⟨h.2.1, (h.2.2.1).trans rfl⟩

end Kassandra
